import Mathlib

/-!
# Verification of the flavor-extractor app (`app.py`)

Shallow embedding of the pure logic of the Streamlit flavor-extraction app:
Python strings are modelled as `List Char`, Python `str.split`, `str.strip`,
`in` (substring), `startswith`, decimal formatting of integers and
`base64.b64encode` are modelled directly, and each helper function of the
source is translated into a Lean definition.  HTTP interactions are modelled
by an explicit outcome datatype (the response's status, reason, headers and
body, or a raised transport exception), and the function bodies are
translated against that outcome.
-/

/-! ## Python string primitives -/

/-- The characters Python's `str.strip()` removes (ASCII whitespace). -/
def isPySpace (c : Char) : Bool :=
  c = ' ' ∨ c = '\t' ∨ c = '\n' ∨ c = '\r' ∨ c = Char.ofNat 11 ∨ c = Char.ofNat 12

/-- Python `s.strip()`: remove leading and trailing whitespace. -/
def pyStrip (s : List Char) : List Char :=
  ((s.dropWhile isPySpace).reverse.dropWhile isPySpace).reverse

/-- Worker for Python `s.split(sep)` (`sep` non-empty), with explicit fuel so
that the definition is structural and evaluates in the kernel.  At each
position: if `sep` starts here, emit the accumulated piece and skip `sep`;
otherwise accumulate one character. -/
def splitGo (sep : List Char) : Nat → List Char → List Char → List (List Char)
  | _, acc, [] => [acc.reverse]
  | 0, acc, s => [acc.reverse ++ s]
  | fuel + 1, acc, c :: rest =>
    if sep <+: (c :: rest) then
      acc.reverse :: splitGo sep fuel [] (rest.drop (sep.length - 1))
    else
      splitGo sep fuel (c :: acc) rest

/-- Python `s.split(sep)` for a non-empty separator. -/
def pySplit (sep s : List Char) : List (List Char) :=
  splitGo sep s.length [] s

/-- Python `sep.join(xs)`. -/
def pyJoin (sep : List Char) (xs : List (List Char)) : List Char :=
  List.intercalate sep xs

/-- Decimal digit character (`0 ≤ n ≤ 9`). -/
def decDigit (n : Nat) : Char := Char.ofNat (48 + n)

/-- Fueled decimal printer for naturals. -/
def natCharsGo : Nat → Nat → List Char
  | 0, _ => []
  | fuel + 1, n => if n < 10 then [decDigit n] else natCharsGo fuel (n / 10) ++ [decDigit (n % 10)]

/-- Decimal rendering of a natural number, as Python's `str`/f-string does. -/
def natChars (n : Nat) : List Char := natCharsGo (n + 1) n

/-! ## JSON values

Modelled from the spec: the app relies on Python's `json` module
(`json.loads` for decoding the model output, `json.dumps(parsed,
ensure_ascii=False, indent=2)` for the download serialization), which is not
part of this repository.  The model below follows the documented behaviour:
values are null, booleans, numbers (restricted to integers; floating point
is out of scope), strings, arrays and objects; objects keep insertion order
and a duplicated key keeps its first position with its last value. -/

inductive Json where
  | null
  | bool (b : Bool)
  | num (n : Int)
  | str (s : List Char)
  | arr (elems : List Json)
  | obj (members : List (List Char × Json))

instance : Inhabited Json := ⟨Json.null⟩

/-- The `{` character (kept out of string literals). -/
def lbrace : Char := Char.ofNat 123

/-- The `}` character (kept out of string literals). -/
def rbrace : Char := Char.ofNat 125

/-- Lowercase hexadecimal digit (`0 ≤ n ≤ 15`). -/
def hexDigitChar (n : Nat) : Char :=
  if n < 10 then Char.ofNat (48 + n) else Char.ofNat (87 + n)

/-- How `json.dumps(..., ensure_ascii=False)` renders one character inside a
string: `"`, `\` and the named control characters get two-character escapes,
other control characters a `\u00XX` escape, everything else is kept as is. -/
def escapeChar (c : Char) : List Char :=
  if c = '"' then ['\\', '"']
  else if c = '\\' then ['\\', '\\']
  else if c = '\n' then ['\\', 'n']
  else if c = '\t' then ['\\', 't']
  else if c = '\r' then ['\\', 'r']
  else if c = Char.ofNat 8 then ['\\', 'b']
  else if c = Char.ofNat 12 then ['\\', 'f']
  else if c.toNat < 32 then
    ['\\', 'u', '0', '0', hexDigitChar (c.toNat / 16), hexDigitChar (c.toNat % 16)]
  else [c]

/-- JSON rendering of a string, quotes included. -/
def renderString (s : List Char) : List Char :=
  '"' :: s.flatMap escapeChar ++ ['"']

/-- Decimal rendering of an integer. -/
def intChars (i : Int) : List Char :=
  if i < 0 then '-' :: natChars i.natAbs else natChars i.natAbs

/-- The indentation `json.dumps(..., indent=2)` puts before an element at
nesting depth `level`. -/
def indentChars (level : Nat) : List Char := List.replicate (2 * level) ' '

mutual

/-- `json.dumps(v, ensure_ascii=False, indent=2)`, at nesting depth `level`:
containers spread over lines, two more spaces per depth, item separator `,`
at the end of a line, key separator `: `. -/
def renderVal (level : Nat) : Json → List Char
  | .null => "null".toList
  | .bool true => "true".toList
  | .bool false => "false".toList
  | .num i => intChars i
  | .str s => renderString s
  | .arr [] => "[]".toList
  | .arr (x :: xs) =>
    '[' :: '\n' :: indentChars (level + 1) ++ renderVal (level + 1) x ++
      renderArrTail (level + 1) xs ++ '\n' :: indentChars level ++ [']']
  | .obj [] => [lbrace, rbrace]
  | .obj (m :: ms) =>
    lbrace :: '\n' :: indentChars (level + 1) ++ renderMember (level + 1) m ++
      renderObjTail (level + 1) ms ++ '\n' :: indentChars level ++ [rbrace]

/-- Remaining array elements, each after a `,` and a line break. -/
def renderArrTail (level : Nat) : List Json → List Char
  | [] => []
  | x :: xs => ',' :: '\n' :: indentChars level ++ renderVal level x ++ renderArrTail level xs

/-- One `"key": value` object member. -/
def renderMember (level : Nat) : List Char × Json → List Char
  | (k, v) => renderString k ++ ':' :: ' ' :: renderVal level v

/-- Remaining object members, each after a `,` and a line break. -/
def renderObjTail (level : Nat) : List (List Char × Json) → List Char
  | [] => []
  | m :: ms => ',' :: '\n' :: indentChars level ++ renderMember level m ++ renderObjTail level ms

end

/-- `json.dumps(v, ensure_ascii=False, indent=2)`. -/
def pyDumps (v : Json) : List Char := renderVal 0 v

/-! ## JSON parsing (`json.loads`) -/

/-- JSON insignificant whitespace (`json`'s `[ \t\n\r]*`). -/
def isJsonWs (c : Char) : Bool := c = ' ' ∨ c = '\t' ∨ c = '\n' ∨ c = '\r'

/-- Skip insignificant whitespace. -/
def skipWs (s : List Char) : List Char := s.dropWhile isJsonWs

/-- ASCII decimal digit test. -/
def isDigitChar (c : Char) : Bool := 48 ≤ c.toNat ∧ c.toNat ≤ 57

/-- Value of an ASCII decimal digit. -/
def digitVal (c : Char) : Nat := c.toNat - 48

/-- Consume a maximal run of digits, folding them onto `acc`. -/
def parseDigitsAcc : Nat → List Char → Nat × List Char
  | acc, [] => (acc, [])
  | acc, c :: rest =>
    if isDigitChar c then parseDigitsAcc (acc * 10 + digitVal c) rest else (acc, c :: rest)

/-- Unsigned integer literal per the JSON grammar: `0`, or a nonzero digit
followed by more digits (no leading zeros). -/
def parseNumBody : List Char → Option (Nat × List Char)
  | [] => none
  | c :: rest =>
    if c = '0' then some (0, rest)
    else if isDigitChar c then some (parseDigitsAcc (digitVal c) rest)
    else none

/-- Signed integer literal: an optional `-` then an unsigned literal. -/
def parseNumber : List Char → Option (Int × List Char)
  | [] => none
  | c :: rest =>
    if c = '-' then (parseNumBody rest).map (fun p => (-(p.1 : Int), p.2))
    else (parseNumBody (c :: rest)).map (fun p => ((p.1 : Int), p.2))

/-- Value of a hexadecimal digit character, if it is one. -/
def hexVal (c : Char) : Option Nat :=
  if 48 ≤ c.toNat ∧ c.toNat ≤ 57 then some (c.toNat - 48)
  else if 97 ≤ c.toNat ∧ c.toNat ≤ 102 then some (c.toNat - 87)
  else if 65 ≤ c.toNat ∧ c.toNat ≤ 70 then some (c.toNat - 55)
  else none

/-- Parse the body of a JSON string after the opening quote, up to and
including the closing quote; handles the named escapes, `\uXXXX` and rejects
raw control characters (`json.loads`'s default strict mode). -/
def parseStringBody : List Char → Option (List Char × List Char)
  | [] => none
  | c :: rest =>
    if c = '"' then some ([], rest)
    else if c = '\\' then
      match rest with
      | [] => none
      | e :: rest2 =>
        if e = '"' then (parseStringBody rest2).map (fun p => ('"' :: p.1, p.2))
        else if e = '\\' then (parseStringBody rest2).map (fun p => ('\\' :: p.1, p.2))
        else if e = '/' then (parseStringBody rest2).map (fun p => ('/' :: p.1, p.2))
        else if e = 'n' then (parseStringBody rest2).map (fun p => ('\n' :: p.1, p.2))
        else if e = 't' then (parseStringBody rest2).map (fun p => ('\t' :: p.1, p.2))
        else if e = 'r' then (parseStringBody rest2).map (fun p => ('\r' :: p.1, p.2))
        else if e = 'b' then (parseStringBody rest2).map (fun p => (Char.ofNat 8 :: p.1, p.2))
        else if e = 'f' then (parseStringBody rest2).map (fun p => (Char.ofNat 12 :: p.1, p.2))
        else if e = 'u' then
          match rest2 with
          | h1 :: h2 :: h3 :: h4 :: rest3 =>
            match hexVal h1, hexVal h2, hexVal h3, hexVal h4 with
            | some a, some b, some c2, some d =>
              (parseStringBody rest3).map
                (fun p => (Char.ofNat (((a * 16 + b) * 16 + c2) * 16 + d) :: p.1, p.2))
            | _, _, _, _ => none
          | _ => none
        else none
    else if c.toNat < 32 then none
    else (parseStringBody rest).map (fun p => (c :: p.1, p.2))

/-- Add a parsed object member in front of the already-parsed later members:
Python dict semantics, a duplicated key keeps its first position but the
later value. -/
def consMember (k : List Char) (v : Json) (ms : List (List Char × Json)) :
    List (List Char × Json) :=
  match ms.find? (fun m => m.1 = k) with
  | some m => (k, m.2) :: ms.filter (fun m => ¬ m.1 = k)
  | none => (k, v) :: ms

/-- Continuation of the literal `true` after its `t`. -/
def matchTrue : List Char → Option (Json × List Char)
  | 'r' :: 'u' :: 'e' :: r => some (Json.bool true, r)
  | _ => none

/-- Continuation of the literal `false` after its `f`. -/
def matchFalse : List Char → Option (Json × List Char)
  | 'a' :: 'l' :: 's' :: 'e' :: r => some (Json.bool false, r)
  | _ => none

/-- Continuation of the literal `null` after its `n`. -/
def matchNull : List Char → Option (Json × List Char)
  | 'u' :: 'l' :: 'l' :: r => some (Json.null, r)
  | _ => none

mutual

/-- Parse one JSON value (after optional whitespace); `fuel` bounds the
recursion depth and is in ample supply at every call site. -/
def parseVal : Nat → List Char → Option (Json × List Char)
  | 0, _ => none
  | fuel + 1, s =>
    match skipWs s with
    | [] => none
    | c :: rest =>
      if c = '"' then (parseStringBody rest).map (fun p => (Json.str p.1, p.2))
      else if c = lbrace then parseMembersStart fuel rest
      else if c = '[' then parseElemsStart fuel rest
      else if c = 't' then matchTrue rest
      else if c = 'f' then matchFalse rest
      else if c = 'n' then matchNull rest
      else (parseNumber (c :: rest)).map (fun p => (Json.num p.1, p.2))

/-- Parse an array after its `[`: either an immediate `]`, or a first value
followed by the comma-separated remainder. -/
def parseElemsStart : Nat → List Char → Option (Json × List Char)
  | 0, _ => none
  | fuel + 1, s =>
    match skipWs s with
    | [] => none
    | c :: r =>
      if c = ']' then some (Json.arr [], r)
      else
        match parseVal fuel (c :: r) with
        | none => none
        | some (v, r2) =>
          match parseElemsTail fuel r2 with
          | none => none
          | some (vs, r3) => some (Json.arr (v :: vs), r3)

/-- After one array element: `]` closes, `,` continues with another value. -/
def parseElemsTail : Nat → List Char → Option (List Json × List Char)
  | 0, _ => none
  | fuel + 1, s =>
    match skipWs s with
    | [] => none
    | c :: r =>
      if c = ']' then some ([], r)
      else if c = ',' then
        match parseVal fuel r with
        | none => none
        | some (v, r2) =>
          match parseElemsTail fuel r2 with
          | none => none
          | some (vs, r3) => some (v :: vs, r3)
      else none

/-- Parse an object after its opening brace: either an immediate closing
brace, or a first `"key": value` member followed by the remainder. -/
def parseMembersStart : Nat → List Char → Option (Json × List Char)
  | 0, _ => none
  | fuel + 1, s =>
    match skipWs s with
    | [] => none
    | c :: r =>
      if c = rbrace then some (Json.obj [], r)
      else if c = '"' then
        match parseStringBody r with
        | none => none
        | some (k, r2) =>
          match skipWs r2 with
          | ':' :: r3 =>
            match parseVal fuel r3 with
            | none => none
            | some (v, r4) =>
              match parseMembersTail fuel r4 with
              | none => none
              | some (ms, r5) => some (Json.obj (consMember k v ms), r5)
          | _ => none
      else none

/-- After one object member: closing brace ends, `,` continues with another
`"key": value` member. -/
def parseMembersTail : Nat → List Char → Option (List (List Char × Json) × List Char)
  | 0, _ => none
  | fuel + 1, s =>
    match skipWs s with
    | [] => none
    | c :: r =>
      if c = rbrace then some ([], r)
      else if c = ',' then
        match skipWs r with
        | '"' :: r2 =>
          match parseStringBody r2 with
          | none => none
          | some (k, r3) =>
            match skipWs r3 with
            | ':' :: r4 =>
              match parseVal fuel r4 with
              | none => none
              | some (v, r5) =>
                match parseMembersTail fuel r5 with
                | none => none
                | some (ms, r6) => some (consMember k v ms, r6)
            | _ => none
        | _ => none
      else none

end

/-- `json.loads`: parse one value, then require only whitespace to remain
(otherwise Python raises `JSONDecodeError("Extra data")`); `none` models a
raised `JSONDecodeError`. -/
def pyLoads (s : List Char) : Option Json :=
  match parseVal (2 * s.length + 2) s with
  | none => none
  | some (v, rest) => if skipWs rest = [] then some v else none

/-! ## `app.py` helper functions -/

/-- One entry of an output item's `content` list; `.get` lookups on the
underlying dict are modelled by optional fields. -/
structure ContentEntry where
  ctype : Option (List Char)
  text : Option (List Char)

/-- One item of the response's `output` list. -/
structure OutputItem where
  itemType : Option (List Char)
  content : List ContentEntry

/-- `extract_output_text` (app.py:81-90): walk the `output` items, keep
`message` items, collect the `text` of their `output_text` content entries,
and newline-join the truthy (non-empty) collected texts. -/
def extract_output_text (output : List OutputItem) : List Char :=
  let texts := output.foldl
    (fun acc item =>
      if ¬ item.itemType = some ("message".toList) then acc
      else item.content.foldl
        (fun acc2 c =>
          if c.ctype = some ("output_text".toList) then acc2 ++ [c.text.getD []] else acc2)
        acc)
    []
  pyJoin ("\n".toList) (texts.filter (fun t => ¬ t = []))

/-- `required_fields` (app.py:67-78). -/
def required_fields : List (List Char) :=
  ["flavors_list".toList, "multiple_descriptors".toList, "brand_name".toList,
   "extraction_evidence".toList, "nicotine_content".toList, "size_or_volume".toList,
   "warning_label_present".toList, "warning_label_location".toList, "main_color".toList]

/-- The `missing` comprehension (app.py:284) on a decoded JSON object:
`[k for k in required_fields() if k not in parsed]`. -/
def missingRequired (members : List (List Char × Json)) : List (List Char) :=
  required_fields.filter (fun k => !(members.map Prod.fst).contains k)

/-- `normalize_drive_url` (app.py:148-157): non-Drive URLs pass through; a
`id=` query parameter or a `/file/d/` path segment is rewritten to the
canonical direct-download form. -/
def normalize_drive_url (url : List Char) : List Char :=
  if ¬ ("drive.google.com".toList <:+: url) then url
  else if ("id=".toList <:+: url) then
    let fileId := (pySplit ("&".toList) ((pySplit ("id=".toList) url).getLastD [])).headI
    "https://drive.google.com/uc?export=download&id=".toList ++ fileId
  else if ("/file/d/".toList <:+: url) then
    let fileId := (pySplit ("/".toList) ((pySplit ("/file/d/".toList) url).getLastD [])).headI
    "https://drive.google.com/uc?export=download&id=".toList ++ fileId
  else url

/-- `requests.Response.ok`: true unless the status is a 4xx or 5xx. -/
def respOk (status : Nat) : Bool := ¬ (400 ≤ status ∧ status < 600)

/-- Outcome of an HTTP GET: either a raised transport exception (with its
text) or a response with status, reason, optional `Content-Type` header and
body bytes. -/
inductive HttpOutcome where
  | exc (msg : List Char)
  | resp (status : Nat) (reason : List Char) (contentType : Option (List Char))
      (content : List Nat)

/-- `fetch_image_url` (app.py:160-170), as a function of the HTTP outcome. -/
def fetch_image_url (o : HttpOutcome) :
    Option (List Nat) × Option (List Char) × Option (List Char) :=
  match o with
  | .exc m => (none, none, some m)
  | .resp status reason ct content =>
    if ¬ respOk status then
      (none, none, some ("HTTP ".toList ++ natChars status ++ " ".toList ++ reason))
    else
      let contentType := ct.getD []
      if "image/".toList <+: contentType then (some content, some contentType, none)
      else
        (none, none,
          some ("URL did not return an image (Content-Type: ".toList ++ contentType ++ ")".toList))

/-- Outcome of the credential-validation GET: a raised transport exception or
a response with status and reason. -/
inductive GetOutcome where
  | exc (msg : List Char)
  | resp (status : Nat) (reason : List Char)

/-- `validate_api_key` (app.py:173-186), as a function of the key and the
HTTP outcome. -/
def validate_api_key (apiKey : List Char) (o : GetOutcome) : Bool × List Char :=
  if apiKey = [] then (false, "Missing API key".toList)
  else
    match o with
    | .exc m => (false, m)
    | .resp status reason =>
      if respOk status then (true, "API key looks valid".toList)
      else if status = 401 then (false, "Invalid API key".toList)
      else (false, "HTTP ".toList ++ natChars status ++ " ".toList ++ reason)

/-- The extraction POST's response: status, reason, the
`resp.json().get("error", {})` fields (`none` when the body is not JSON or
the `error` value is not a dict, so that lookup raises and the handler falls
back to `resp.text`), the raw text, and the JSON body for the success
path. -/
structure PostResponse where
  status : Nat
  reason : List Char
  errInfo : Option (List Char × List Char × List Char)
  text : List Char
  respJson : Json

/-- `call_openai` (app.py:119-134), response handling: on a non-ok status
build the diagnostic detail from the structured error body (or the raw text
truncated to 1000 characters), append the access hint for 401/403/404, and
raise; otherwise return the response's JSON body. -/
def call_openai (r : PostResponse) : Except (List Char) Json :=
  if ¬ respOk r.status then
    let detail := match r.errInfo with
      | some (m, t, c) =>
        pyStrip (m ++ " (type=".toList ++ t ++ ", code=".toList ++ c ++ ")".toList)
      | none => r.text.take 1000
    let hint := if r.status = 401 ∨ r.status = 403 ∨ r.status = 404 then
        " This may be a model access issue; check your API tier and organization verification.".toList
      else []
    Except.error
      ("HTTP ".toList ++ natChars r.status ++ " ".toList ++ r.reason ++ ": ".toList ++
        detail ++ hint)
  else Except.ok r.respJson

/-- Character `n` of the base64 alphabet. -/
def b64Char (n : Nat) : Char :=
  "ABCDEFGHIJKLMNOPQRSTUVWXYZabcdefghijklmnopqrstuvwxyz0123456789+/".toList.getD n 'A'

/-- `base64.b64encode` on a byte list: 3 bytes become 4 alphabet characters,
a final 1- or 2-byte group is padded with `=`. -/
def b64encode : List Nat → List Char
  | [] => []
  | [a] => [b64Char (a / 4 % 64), b64Char (a % 4 * 16), '=', '=']
  | [a, b] => [b64Char (a / 4 % 64), b64Char (a % 4 * 16 + b / 16), b64Char (b % 16 * 4), '=']
  | a :: b :: c :: rest =>
    [b64Char (a / 4 % 64), b64Char (a % 4 * 16 + b / 16), b64Char (b % 16 * 4 + c / 64),
      b64Char (c % 64)] ++ b64encode rest

/-- An uploaded file: its bytes and its declared media type (Streamlit's
`UploadedFile.type`). -/
structure UploadedFile where
  content : List Nat
  mimeType : Option (List Char)

/-- `file_to_data_url` (app.py:137-145): absence or empty bytes give `None`;
otherwise wrap the base64-encoded bytes in a `data:` URL tagged with the
declared media type, defaulting (Python `or`, so also for an empty declared
type) to `application/octet-stream`. -/
def file_to_data_url : Option UploadedFile → Option (List Char)
  | none => none
  | some f =>
    if f.content = [] then none
    else
      let mime := match f.mimeType with
        | some t => if t = [] then "application/octet-stream".toList else t
        | none => "application/octet-stream".toList
      some ("data:".toList ++ mime ++ ";base64,".toList ++ b64encode f.content)

/-! ## The result-display step (app.py:274-295) -/

/-- Python `k not in parsed` for a decoded JSON value: key lookup for a
dict, membership for a list, substring for a string; `none` models the
`TypeError` raised on numbers, booleans and `None`. -/
def pyNotIn (k : List Char) : Json → Option Bool
  | .obj ms => some (!(ms.map Prod.fst).contains k)
  | .arr xs => some (!xs.any (fun x => match x with | .str s => s = k | _ => false))
  | .str s => some (!(decide (k <:+: s)))
  | _ => none

/-- `[k for k in required_fields() if k not in parsed]` over an arbitrary
decoded value; `none` models a raised `TypeError`. -/
def computeMissing (v : Json) : Option (List (List Char)) :=
  required_fields.foldr
    (fun k acc =>
      match acc, pyNotIn k v with
      | some l, some true => some (k :: l)
      | some l, some false => some l
      | _, _ => none)
    (some [])

/-- What the display step renders. -/
inductive DisplayOutcome where
  | rawResponse
  | parsedJson (v : Json) (missing : List (List Char)) (download : List Char)
  | rawTextWarned (text : List Char)

/-- A Python exception escaping the display step. -/
inductive PyError where
  | typeError

/-- The result-display step (app.py:274-295): empty output text shows the
raw response; otherwise `json.loads` is attempted, a `JSONDecodeError` is
caught and the raw text shown with a warning, and a successful decode shows
the parsed value, the missing-key warning data and the download
serialization. -/
def display_step (outputText : List Char) : Except PyError DisplayOutcome :=
  if outputText = [] then .ok .rawResponse
  else
    match pyLoads outputText with
    | none => .ok (.rawTextWarned outputText)
    | some v =>
      match computeMissing v with
      | none => .error .typeError
      | some missing => .ok (.parsedJson v missing (pyDumps v))

/-! ## Auxiliary definitions for the statements -/

/-- The extraction contract as the spec words it: the newline-join of the
`text` fields of every `output_text` content entry of every `message` item,
in list order (no entry skipped). -/
def extract_output_text_spec (output : List OutputItem) : List Char :=
  pyJoin ("\n".toList)
    (((output.filter (fun i => i.itemType = some ("message".toList))).flatMap
        (fun i => i.content.filter (fun c => c.ctype = some ("output_text".toList)))).map
      (fun c => c.text.getD []))

/-- Characters that can occur in a Google Drive file id. -/
def isDriveIdChar (c : Char) : Bool := c.isAlphanum ∨ c = '-' ∨ c = '_'

/-- The file id `normalize_drive_url` extracts from a URL (empty when the
URL is returned unchanged). -/
def extractedFileId (url : List Char) : List Char :=
  if ¬ ("drive.google.com".toList <:+: url) then []
  else if ("id=".toList <:+: url) then
    (pySplit ("&".toList) ((pySplit ("id=".toList) url).getLastD [])).headI
  else if ("/file/d/".toList <:+: url) then
    (pySplit ("/".toList) ((pySplit ("/file/d/".toList) url).getLastD [])).headI
  else []

/-- Well-formed JSON values: every object has pairwise-distinct keys.  Every
value `pyLoads` produces is well-formed. -/
inductive WfJson : Json → Prop where
  | null : WfJson .null
  | bool (b : Bool) : WfJson (.bool b)
  | num (n : Int) : WfJson (.num n)
  | str (s : List Char) : WfJson (.str s)
  | arr (xs : List Json) : (∀ x ∈ xs, WfJson x) → WfJson (.arr xs)
  | obj (ms : List (List Char × Json)) : (ms.map Prod.fst).Nodup →
      (∀ m ∈ ms, WfJson m.2) → WfJson (.obj ms)

/-- Fuel needed by the parser to traverse a rendered value. -/
def fcost : Json → Nat
  | .null => 1
  | .bool _ => 1
  | .num _ => 1
  | .str _ => 1
  | .arr xs => 2 + (xs.attach.map (fun x => fcost x.1 + 1)).sum
  | .obj ms => 2 + (ms.attach.map (fun m => fcost m.1.2 + 1)).sum
decreasing_by
  · have h := List.sizeOf_lt_of_mem x.2
    simp only [Json.arr.sizeOf_spec]
    omega
  · have h1 : sizeOf m.1.2 < sizeOf m.1 := by
      rcases m with ⟨⟨k, v⟩, hm⟩; simp
    have h2 : sizeOf m.1 < sizeOf ms := List.sizeOf_lt_of_mem m.2
    simp only [Json.obj.sizeOf_spec]
    omega

/-- Total parser fuel needed for a list of array elements. -/
def sumCostArr (xs : List Json) : Nat := (xs.map (fun x => fcost x + 1)).sum

/-- Total parser fuel needed for a list of object members. -/
def sumCostObj (ms : List (List Char × Json)) : Nat := (ms.map (fun m => fcost m.2 + 1)).sum

/-- What may legally follow a rendered value so that the parser stops exactly
at its end: nothing, or a separator (`,`) or line break (`\n`). -/
def RestOk : List Char → Prop
  | [] => True
  | c :: _ => c = ',' ∨ c = '\n'

/-! ## Lemmas about the Python string primitives -/

theorem splitGo_fuel (sep : List Char) :
    ∀ (f1 f2 : Nat) (acc s : List Char), s.length ≤ f1 → s.length ≤ f2 →
      splitGo sep f1 acc s = splitGo sep f2 acc s := by
  intro f1
  induction f1 with
  | zero =>
    intro f2 acc s h1 h2
    have hs : s = [] := by cases s <;> simp_all
    subst hs
    cases f2 <;> simp [splitGo]
  | succ f ih =>
    intro f2 acc s h1 h2
    cases s with
    | nil => cases f2 <;> simp [splitGo]
    | cons c rest =>
      cases f2 with
      | zero => simp at h2
      | succ f2' =>
        simp only [splitGo]
        by_cases hp : sep <+: (c :: rest)
        · simp only [if_pos hp]
          have hd : (rest.drop (sep.length - 1)).length ≤ rest.length := by
            rw [List.length_drop]; omega
          simp only [List.length_cons] at h1 h2
          rw [ih f2' [] (rest.drop (sep.length - 1)) (by omega) (by omega)]
        · simp only [if_neg hp]
          simp only [List.length_cons] at h1 h2
          exact ih f2' (c :: acc) rest (by omega) (by omega)

theorem splitGo_no_occ (sep : List Char) (hne : sep ≠ []) :
    ∀ (s acc : List Char) (fuel : Nat), s.length ≤ fuel → ¬ sep <:+: s →
      splitGo sep fuel acc s = [acc.reverse ++ s] := by
  intro s
  induction s with
  | nil => intro acc fuel _ _; cases fuel <;> simp [splitGo]
  | cons c rest ih =>
    intro acc fuel hf hocc
    cases fuel with
    | zero => simp at hf
    | succ f =>
      simp only [splitGo]
      have hp : ¬ sep <+: (c :: rest) := fun h => hocc h.isInfix
      simp only [if_neg hp]
      rw [ih (c :: acc) f (by simp at hf; omega) (fun h => hocc (List.infix_cons h))]
      simp

theorem pySplit_no_occ (sep s : List Char) (hne : sep ≠ []) (hocc : ¬ sep <:+: s) :
    pySplit sep s = [s] := by
  have := splitGo_no_occ sep hne s [] s.length le_rfl hocc
  simpa [pySplit] using this

theorem splitGo_boundary (sep : List Char) (hne : sep ≠ []) :
    ∀ (p rest acc : List Char) (fuel : Nat),
      p.length + sep.length + rest.length ≤ fuel →
      ¬ sep <:+: (p ++ sep.take (sep.length - 1)) →
      splitGo sep fuel acc (p ++ sep ++ rest) =
        (acc.reverse ++ p) :: pySplit sep rest := by
  intro p
  induction p with
  | nil =>
    intro rest acc fuel hf hocc
    cases sep with
    | nil => exact absurd rfl hne
    | cons a sep' =>
      cases fuel with
      | zero => simp at hf
      | succ f =>
        simp only [List.nil_append, List.cons_append, splitGo, List.append_eq]
        have hp : (a :: sep') <+: (a :: (sep' ++ rest)) := by
          simpa using List.prefix_append (a :: sep') rest
        simp only [if_pos hp]
        have hdrop : (sep' ++ rest).drop ((a :: sep').length - 1) = rest := by
          simp only [List.length_cons, Nat.add_sub_cancel]
          exact List.drop_left sep' rest
        rw [hdrop]
        have hfl : rest.length ≤ f := by simp at hf; omega
        rw [splitGo_fuel (a :: sep') f rest.length [] rest hfl le_rfl]
        simp [pySplit]
  | cons c p' ih =>
    intro rest acc fuel hf hocc
    cases fuel with
    | zero => simp at hf
    | succ f =>
      simp only [List.cons_append, splitGo, List.append_eq]
      have hp : ¬ sep <+: (c :: (p' ++ sep ++ rest)) := by
        intro hpre
        apply hocc
        have hx : ((c :: p') ++ sep.take (sep.length - 1)) <+:
            (c :: (p' ++ sep ++ rest)) := by
          have : (c :: p') ++ sep.take (sep.length - 1) ++
              (sep.drop (sep.length - 1) ++ rest) = c :: (p' ++ sep ++ rest) := by
            simp only [List.cons_append, List.append_assoc]
            rw [← List.append_assoc (sep.take (sep.length - 1))]
            rw [List.take_append_drop]
          rw [← this]
          exact List.prefix_append _ _
        have hlen : sep.length ≤ ((c :: p') ++ sep.take (sep.length - 1)).length := by
          have hs : 0 < sep.length := List.length_pos.2 hne
          simp only [List.length_append, List.length_cons, List.length_take]
          omega
        exact (List.prefix_of_prefix_length_le hpre hx hlen).isInfix
      simp only [if_neg hp]
      have hocc' : ¬ sep <:+: (p' ++ sep.take (sep.length - 1)) := by
        intro h
        exact hocc (by simpa using
          (List.infix_cons h : sep <:+: c :: (p' ++ sep.take (sep.length - 1))))
      have := ih rest (c :: acc) f (by simp at hf ⊢; omega) hocc'
      rw [show p' ++ sep ++ rest = p' ++ (sep ++ rest) from by simp, ] at this
      simp only [List.append_assoc] at this ⊢
      rw [this]
      simp

theorem pySplit_boundary (sep p rest : List Char) (hne : sep ≠ [])
    (hocc : ¬ sep <:+: (p ++ sep.take (sep.length - 1))) :
    pySplit sep (p ++ sep ++ rest) = p :: pySplit sep rest := by
  have := splitGo_boundary sep hne p rest [] (p ++ sep ++ rest).length (by simp; omega) hocc
  simpa [pySplit] using this

theorem singleton_isInfix_iff (c : Char) (s : List Char) : [c] <:+: s ↔ c ∈ s := by
  constructor
  · intro h; exact h.subset (by simp)
  · intro h
    rcases List.append_of_mem h with ⟨u, t, rfl⟩
    exact ⟨u, t, by simp⟩

theorem infixAppendCases :
    ∀ (x l y : List Char), l <:+: x ++ y →
      l <:+: x ∨ l <:+: y ∨
        ∃ k, 0 < k ∧ k < l.length ∧ l.take k <:+ x ∧ l.drop k <+: y := by
  intro x
  induction x with
  | nil =>
    intro l y h
    exact Or.inr (Or.inl (by simpa using h))
  | cons c x' ih =>
    intro l y h
    rw [List.cons_append, List.infix_cons_iff] at h
    rcases h with hpre | hinf
    · have hpre' : l <+: (c :: x') ++ y := by simpa using hpre
      by_cases hlen : l.length ≤ (c :: x').length
      · exact Or.inl
          (List.prefix_of_prefix_length_le hpre' (List.prefix_append _ _) hlen).isInfix
      · right; right
        have heq : l = ((c :: x') ++ y).take l.length := List.prefix_iff_eq_take.1 hpre'
        refine ⟨(c :: x').length, by simp, by omega, ?_, ?_⟩
        · have : l.take (c :: x').length = c :: x' := by
            rw [heq, List.take_take, min_eq_left (by omega), List.take_left]
          rw [this]
        · have : l.drop (c :: x').length = y.take (l.length - (c :: x').length) := by
            rw [heq, List.drop_take, List.drop_left, ← heq]
          rw [this]
          exact List.take_prefix _ _
    · rcases ih l y hinf with h1 | h2 | ⟨k, hk0, hkl, hs, hp⟩
      · exact Or.inl (List.infix_cons h1)
      · exact Or.inr (Or.inl h2)
      · exact Or.inr (Or.inr ⟨k, hk0, hkl, hs.trans (List.suffix_cons c x'), hp⟩)

/-! ## C3: the missing-required-keys check -/

theorem computeMissing_obj (members : List (List Char × Json)) :
    computeMissing (Json.obj members) = some (missingRequired members) := by
  unfold computeMissing missingRequired
  induction required_fields with
  | nil => rfl
  | cons k ks ih =>
    rw [List.foldr_cons, ih, List.filter_cons]
    show (match some _, pyNotIn k (Json.obj members) with
      | some l, some true => some (k :: l)
      | some l, some false => some l
      | _, _ => none) = _
    cases hk : (members.map Prod.fst).contains k <;> simp at hk <;> simp [pyNotIn, hk]

/-- C3: for every decoded JSON object, the missing-required-keys check
computed from the fixed 9-key list reports a key as missing exactly when the
key is not among the object's keys (no false positives or negatives), and
that is what the display step computes on an object. -/
theorem missing_required_keys_exact (members : List (List Char × Json)) :
    (∀ k, k ∈ missingRequired members ↔
      (k ∈ required_fields ∧ ¬ k ∈ members.map Prod.fst)) ∧
    computeMissing (Json.obj members) = some (missingRequired members) := by
  refine ⟨fun k => ?_, computeMissing_obj members⟩
  simp [missingRequired, List.mem_filter]

/-! ## C4: `fetch_image_url` result shape -/

/-- C4: for every HTTP outcome (with a transport exception rendered as a
non-empty text, as `requests` exceptions are), `fetch_image_url` returns
either bytes plus content type and no error, or no bytes, no content type
and a non-empty error; and a response whose `Content-Type` does not start
with `image/` always lands in the error shape with the descriptive message
and no bytes. -/
theorem fetch_image_url_shape (o : HttpOutcome)
    (hexc : ∀ m, o = HttpOutcome.exc m → m ≠ []) :
    ((∃ b ct, fetch_image_url o = (some b, some ct, none)) ∨
      (∃ e, fetch_image_url o = (none, none, some e) ∧ e ≠ [])) ∧
    (∀ status reason ct content,
      o = HttpOutcome.resp status reason ct content →
      respOk status = true →
      ¬ ("image/".toList <+: ct.getD []) →
      fetch_image_url o = (none, none,
        some ("URL did not return an image (Content-Type: ".toList ++
          ct.getD [] ++ ")".toList))) := by
  constructor
  · cases o with
    | exc m =>
      exact Or.inr ⟨m, rfl, hexc m rfl⟩
    | resp status reason ct content =>
      by_cases hok : respOk status
      · by_cases hct : "image/".toList <+: ct.getD []
        · refine Or.inl ⟨content, ct.getD [], ?_⟩
          show (if ¬ respOk status then _ else _) = _
          rw [if_neg (not_not_intro hok)]
          show (if "image/".toList <+: ct.getD [] then _ else _) = _
          rw [if_pos hct]
        · refine Or.inr ⟨"URL did not return an image (Content-Type: ".toList ++
            ct.getD [] ++ ")".toList, ?_, by simp⟩
          show (if ¬ respOk status then _ else _) = _
          rw [if_neg (not_not_intro hok)]
          show (if "image/".toList <+: ct.getD [] then _ else _) = _
          rw [if_neg hct]
      · refine Or.inr ⟨"HTTP ".toList ++ natChars status ++ " ".toList ++ reason,
          ?_, by simp⟩
        show (if ¬ respOk status then _ else _) = _
        rw [if_pos (by simpa using hok)]
  · intro status reason ct content ho hok hct
    subst ho
    show (if ¬ respOk status then _ else _) = _
    rw [if_neg (not_not_intro hok)]
    show (if "image/".toList <+: ct.getD [] then _ else _) = _
    rw [if_neg hct]

/-- Witness for C4 at a concrete non-image response. -/
theorem fetch_image_url_shape_witness :
    ((∃ b ct, fetch_image_url (HttpOutcome.resp 200 ("OK".toList)
        (some ("text/html".toList)) [60, 62]) = (some b, some ct, none)) ∨
      (∃ e, fetch_image_url (HttpOutcome.resp 200 ("OK".toList)
        (some ("text/html".toList)) [60, 62]) = (none, none, some e) ∧ e ≠ [])) ∧
    fetch_image_url (HttpOutcome.resp 200 ("OK".toList)
        (some ("text/html".toList)) [60, 62]) = (none, none,
      some ("URL did not return an image (Content-Type: ".toList ++
        "text/html".toList ++ ")".toList)) := by
  have h := fetch_image_url_shape
    (HttpOutcome.resp 200 ("OK".toList) (some ("text/html".toList)) [60, 62])
    (by intro m hm; cases hm)
  exact ⟨h.1, h.2 200 ("OK".toList) (some ("text/html".toList)) [60, 62] rfl
    (by decide) (by decide)⟩

/-! ## C5: `call_openai` error diagnostics -/

theorem rstrip_of_last (z : List Char) (d : Char) (hd : isPySpace d = false) :
    ((z ++ [d]).reverse.dropWhile isPySpace).reverse = z ++ [d] := by
  rw [List.reverse_append]
  simp [List.dropWhile_cons, hd]

theorem lstrip_paren (X : List Char) :
    (" (type=".toList ++ X).dropWhile isPySpace = "(type=".toList ++ X := by
  show List.dropWhile isPySpace (' ' :: '(' :: 't' :: 'y' :: 'p' :: 'e' :: '=' :: X) = _
  rw [List.dropWhile_cons, if_pos (by decide), List.dropWhile_cons, if_neg (by decide)]
  rfl

theorem pyStrip_detail (m t c : List Char) :
    (m.dropWhile isPySpace ≠ [] →
      pyStrip (m ++ " (type=".toList ++ t ++ ", code=".toList ++ c ++ ")".toList) =
        m.dropWhile isPySpace ++ " (type=".toList ++ t ++ ", code=".toList ++ c ++
          ")".toList) ∧
    (m.dropWhile isPySpace = [] →
      pyStrip (m ++ " (type=".toList ++ t ++ ", code=".toList ++ c ++ ")".toList) =
        "(type=".toList ++ t ++ ", code=".toList ++ c ++ ")".toList) := by
  have hsplit : m ++ " (type=".toList ++ t ++ ", code=".toList ++ c ++ ")".toList =
      m ++ (" (type=".toList ++ (t ++ ", code=".toList ++ c ++ ")".toList)) := by
    simp [List.append_assoc]
  constructor
  · intro h
    unfold pyStrip
    rw [hsplit, List.dropWhile_append,
      if_neg (by simpa [List.isEmpty_iff] using h)]
    rw [show m.dropWhile isPySpace ++
        (" (type=".toList ++ (t ++ ", code=".toList ++ c ++ ")".toList)) =
        (m.dropWhile isPySpace ++ " (type=".toList ++ t ++ ", code=".toList ++ c) ++ [')']
      from by simp [List.append_assoc]]
    rw [rstrip_of_last _ _ (by decide)]
    simp [List.append_assoc]
  · intro h
    unfold pyStrip
    rw [hsplit, List.dropWhile_append,
      if_pos (by simp [List.isEmpty_iff, h]), lstrip_paren]
    rw [show "(type=".toList ++ (t ++ ", code=".toList ++ c ++ ")".toList) =
        ("(type=".toList ++ t ++ ", code=".toList ++ c) ++ [')']
      from by simp [List.append_assoc]]
    rw [rstrip_of_last _ _ (by decide)]
    simp [List.append_assoc]

theorem pyStrip_detail_parts (m t c : List Char) :
    t <:+: pyStrip (m ++ " (type=".toList ++ t ++ ", code=".toList ++ c ++ ")".toList) ∧
    c <:+: pyStrip (m ++ " (type=".toList ++ t ++ ", code=".toList ++ c ++ ")".toList) ∧
    (m.dropWhile isPySpace = m →
      m <:+: pyStrip (m ++ " (type=".toList ++ t ++ ", code=".toList ++ c ++ ")".toList)) := by
  rcases eq_or_ne (m.dropWhile isPySpace) [] with h0 | h0
  · rw [(pyStrip_detail m t c).2 h0]
    refine ⟨⟨"(type=".toList, ", code=".toList ++ c ++ ")".toList, by simp [List.append_assoc]⟩,
      ⟨"(type=".toList ++ t ++ ", code=".toList, ")".toList, by simp [List.append_assoc]⟩, ?_⟩
    intro hm
    rw [hm] at h0
    subst h0
    exact ⟨[], _, rfl⟩
  · rw [(pyStrip_detail m t c).1 h0]
    refine ⟨⟨m.dropWhile isPySpace ++ " (type=".toList, ", code=".toList ++ c ++ ")".toList,
        by simp [List.append_assoc]⟩,
      ⟨m.dropWhile isPySpace ++ " (type=".toList ++ t ++ ", code=".toList, ")".toList,
        by simp [List.append_assoc]⟩, ?_⟩
    intro hm
    rw [hm]
    exact ⟨[], " (type=".toList ++ t ++ ", code=".toList ++ c ++ ")".toList,
      by simp [List.append_assoc]⟩

/-- C5: on every non-success (4xx/5xx) response, `call_openai` raises with a
message whose shape is the HTTP status and reason, a colon, the detail and —
exactly when the status is 401, 403 or 404 — the appended access hint; the
message contains the rendered status code; the detail is the raw text
truncated to at most 1000 characters when no structured error body is
available, and contains the remote error message (when it has no leading
whitespace), type and code when one is. -/
theorem call_openai_error_diagnostic (r : PostResponse)
    (h4 : 400 ≤ r.status) (h6 : r.status < 600) :
    ∃ detail, call_openai r = Except.error
        ("HTTP ".toList ++ natChars r.status ++ " ".toList ++ r.reason ++ ": ".toList ++
          detail ++
          (if r.status = 401 ∨ r.status = 403 ∨ r.status = 404 then
            " This may be a model access issue; check your API tier and organization verification.".toList
          else [])) ∧
      natChars r.status <:+:
        ("HTTP ".toList ++ natChars r.status ++ " ".toList ++ r.reason ++ ": ".toList ++
          detail ++
          (if r.status = 401 ∨ r.status = 403 ∨ r.status = 404 then
            " This may be a model access issue; check your API tier and organization verification.".toList
          else [])) ∧
      (r.errInfo = none → detail = r.text.take 1000 ∧ detail.length ≤ 1000) ∧
      (∀ m t c, r.errInfo = some (m, t, c) →
        t <:+: detail ∧ c <:+: detail ∧ (m.dropWhile isPySpace = m → m <:+: detail)) := by
  have hok : ¬ respOk r.status = true := by simp [respOk]; omega
  refine ⟨(match r.errInfo with
      | some (m, t, c) =>
        pyStrip (m ++ " (type=".toList ++ t ++ ", code=".toList ++ c ++ ")".toList)
      | none => r.text.take 1000), ?_, ?_, ?_, ?_⟩
  · show (if ¬ respOk r.status then _ else _) = _
    rw [if_pos hok]
  · exact ⟨"HTTP ".toList,
      " ".toList ++ r.reason ++ ": ".toList ++
        (match r.errInfo with
          | some (m, t, c) =>
            pyStrip (m ++ " (type=".toList ++ t ++ ", code=".toList ++ c ++ ")".toList)
          | none => r.text.take 1000) ++
        (if r.status = 401 ∨ r.status = 403 ∨ r.status = 404 then
          " This may be a model access issue; check your API tier and organization verification.".toList
        else []),
      by simp [List.append_assoc]⟩
  · intro hnone
    rw [hnone]
    exact ⟨rfl, by rw [List.length_take]; omega⟩
  · intro m t c hsome
    rw [hsome]
    exact pyStrip_detail_parts m t c

/-- Witness for C5 at a concrete 404 response with a structured error body. -/
theorem call_openai_error_diagnostic_witness :
    ∃ detail,
      call_openai ⟨404, "Not Found".toList,
          some ("The model does not exist".toList, "invalid_request_error".toList,
            "model_not_found".toList), [], Json.null⟩ = Except.error
        ("HTTP ".toList ++ natChars 404 ++ " ".toList ++ "Not Found".toList ++
          ": ".toList ++ detail ++
          (if (404 : Nat) = 401 ∨ (404 : Nat) = 403 ∨ (404 : Nat) = 404 then
            " This may be a model access issue; check your API tier and organization verification.".toList
          else [])) ∧
      natChars 404 <:+:
        ("HTTP ".toList ++ natChars 404 ++ " ".toList ++ "Not Found".toList ++
          ": ".toList ++ detail ++
          (if (404 : Nat) = 401 ∨ (404 : Nat) = 403 ∨ (404 : Nat) = 404 then
            " This may be a model access issue; check your API tier and organization verification.".toList
          else [])) ∧
      ((some ("The model does not exist".toList, "invalid_request_error".toList,
          "model_not_found".toList) :
            Option (List Char × List Char × List Char)) = none →
        detail = ([] : List Char).take 1000 ∧ detail.length ≤ 1000) ∧
      (∀ m t c,
        (some ("The model does not exist".toList, "invalid_request_error".toList,
          "model_not_found".toList) :
            Option (List Char × List Char × List Char)) = some (m, t, c) →
        t <:+: detail ∧ c <:+: detail ∧ (m.dropWhile isPySpace = m → m <:+: detail)) :=
  call_openai_error_diagnostic ⟨404, "Not Found".toList,
    some ("The model does not exist".toList, "invalid_request_error".toList,
      "model_not_found".toList), [], Json.null⟩ (by decide) (by decide)

/-! ## C6: `validate_api_key` outcomes -/

/-- C6 counterexample: at a 303-redirect-style response (HTTP 304, which is
neither a 2xx success nor a 401), `requests`' `ok` is true, so
`validate_api_key` reports the key valid instead of reporting the status
verbatim as the claim states. -/
theorem validate_api_key_claim_counterexample :
    validate_api_key ("k".toList) (GetOutcome.resp 304 ("Not Modified".toList)) =
      (true, "API key looks valid".toList) ∧
    ¬ (200 ≤ 304 ∧ 304 < 300) ∧
    (304 : Nat) ≠ 401 ∧
    validate_api_key ("k".toList) (GetOutcome.resp 304 ("Not Modified".toList)) ≠
      (false, "HTTP ".toList ++ natChars 304 ++ " ".toList ++ "Not Modified".toList) := by
  refine ⟨?_, by omega, by omega, ?_⟩
  · rfl
  · intro h
    exact absurd (congrArg Prod.fst h) (by decide)

/-- C6 (amended): with a non-empty key, `validate_api_key` reports valid on
every 2xx (indeed on every status `requests` treats as ok), reports exactly
`Invalid API key` precisely for status 401, reports the verbatim HTTP status
for every other 4xx/5xx status, and returns the exception text on a raised
transport exception. -/
theorem validate_api_key_outcomes (apiKey : List Char) (hk : apiKey ≠ []) :
    (∀ status reason, 200 ≤ status → status < 300 →
      validate_api_key apiKey (GetOutcome.resp status reason) =
        (true, "API key looks valid".toList)) ∧
    (∀ status reason,
      validate_api_key apiKey (GetOutcome.resp status reason) =
          (false, "Invalid API key".toList) ↔ status = 401) ∧
    (∀ status reason, 400 ≤ status → status < 600 → status ≠ 401 →
      validate_api_key apiKey (GetOutcome.resp status reason) =
        (false, "HTTP ".toList ++ natChars status ++ " ".toList ++ reason)) ∧
    (∀ m, validate_api_key apiKey (GetOutcome.exc m) = (false, m)) := by
  have hcase : ∀ status reason,
      validate_api_key apiKey (GetOutcome.resp status reason) =
        (if respOk status then (true, "API key looks valid".toList)
        else if status = 401 then (false, "Invalid API key".toList)
        else (false, "HTTP ".toList ++ natChars status ++ " ".toList ++ reason)) := by
    intro status reason
    show (if apiKey = [] then _ else _) = _
    rw [if_neg hk]
  refine ⟨?_, ?_, ?_, ?_⟩
  · intro status reason h2 h3
    rw [hcase, if_pos (by simp [respOk]; omega)]
  · intro status reason
    constructor
    · intro h
      rw [hcase] at h
      by_cases hok : respOk status
      · rw [if_pos hok] at h
        exact absurd (congrArg Prod.fst h) (by decide)
      · rw [if_neg hok] at h
        by_cases h401 : status = 401
        · exact h401
        · rw [if_neg h401] at h
          have := congrArg (fun p => p.2.headI) h
          simp at this
    · intro h
      subst h
      rw [hcase, if_neg (by simp [respOk]), if_pos rfl]
  · intro status reason h4 h6 h401
    rw [hcase, if_neg (by simp [respOk]; omega), if_neg h401]
  · intro m
    show (if apiKey = [] then _ else _) = _
    rw [if_neg hk]

/-- Witness for C6 (amended) at a concrete key, a 401, a 200 and a 503. -/
theorem validate_api_key_outcomes_witness :
    validate_api_key ("k".toList) (GetOutcome.resp 200 ("OK".toList)) =
      (true, "API key looks valid".toList) ∧
    validate_api_key ("k".toList) (GetOutcome.resp 401 ("Unauthorized".toList)) =
      (false, "Invalid API key".toList) ∧
    validate_api_key ("k".toList) (GetOutcome.resp 503 ("Service Unavailable".toList)) =
      (false, "HTTP ".toList ++ natChars 503 ++ " ".toList ++
        "Service Unavailable".toList) ∧
    validate_api_key ("k".toList) (GetOutcome.exc ("timeout".toList)) =
      (false, "timeout".toList) := by
  have h := validate_api_key_outcomes ("k".toList) (by decide)
  exact ⟨h.1 200 ("OK".toList) (by omega) (by omega),
    (h.2.1 401 ("Unauthorized".toList)).2 rfl,
    h.2.2.1 503 ("Service Unavailable".toList) (by omega) (by omega) (by omega),
    h.2.2.2 ("timeout".toList)⟩

/-! ## C7: `file_to_data_url` -/

/-- C7: `file_to_data_url` returns `None` exactly for an absent file or empty
bytes, and otherwise returns the complete `data:<mime>;base64,<payload>` URL
whose media type is the declared one (Python `or`: a missing or empty
declared type falls back to `application/octet-stream`); in particular no
data URL is ever produced from zero bytes. -/
theorem file_to_data_url_shape (f : Option UploadedFile) :
    (file_to_data_url f = none ↔ (f = none ∨ ∃ uf, f = some uf ∧ uf.content = [])) ∧
    (∀ uf, f = some uf → uf.content ≠ [] →
      file_to_data_url f = some ("data:".toList ++
        (match uf.mimeType with
          | some mt => if mt = [] then "application/octet-stream".toList else mt
          | none => "application/octet-stream".toList) ++
        ";base64,".toList ++ b64encode uf.content)) := by
  constructor
  · cases f with
    | none => simp [file_to_data_url]
    | some uf =>
      by_cases h : uf.content = []
      · simp [file_to_data_url, h]
      · simp [file_to_data_url, h]
  · intro uf hf hne
    subst hf
    show (if uf.content = [] then _ else _) = _
    rw [if_neg hne]

/-- Witness for C7 at a two-byte image upload and at an empty upload. -/
theorem file_to_data_url_shape_witness :
    file_to_data_url (some ⟨[72, 105], some ("image/png".toList)⟩) =
      some ("data:".toList ++
        (match (some ("image/png".toList) : Option (List Char)) with
          | some mt => if mt = [] then "application/octet-stream".toList else mt
          | none => "application/octet-stream".toList) ++
        ";base64,".toList ++ b64encode [72, 105]) ∧
    file_to_data_url (some ⟨[], some ("image/png".toList)⟩) = none := by
  constructor
  · exact (file_to_data_url_shape (some ⟨[72, 105], some ("image/png".toList)⟩)).2
      ⟨[72, 105], some ("image/png".toList)⟩ rfl (by decide)
  · exact (file_to_data_url_shape (some ⟨[], some ("image/png".toList)⟩)).1.2
      (Or.inr ⟨⟨[], some ("image/png".toList)⟩, rfl, rfl⟩)

/-! ## C1: `extract_output_text` -/

theorem extract_content_foldl (content : List ContentEntry) : ∀ acc : List (List Char),
    content.foldl
        (fun acc2 c =>
          if c.ctype = some ("output_text".toList) then acc2 ++ [c.text.getD []] else acc2)
        acc =
      acc ++ (content.filter (fun c => c.ctype = some ("output_text".toList))).map
        (fun c => c.text.getD []) := by
  induction content with
  | nil => intro acc; simp
  | cons c cs ih =>
    intro acc
    simp only [List.foldl_cons]
    by_cases hc : c.ctype = some ("output_text".toList)
    · rw [if_pos hc, ih, List.filter_cons_of_pos (by simpa using hc)]
      simp [List.append_assoc]
    · rw [if_neg hc, ih, List.filter_cons_of_neg (by simpa using hc)]

theorem extract_output_foldl (output : List OutputItem) : ∀ acc : List (List Char),
    output.foldl
        (fun acc item =>
          if ¬ item.itemType = some ("message".toList) then acc
          else item.content.foldl
            (fun acc2 c =>
              if c.ctype = some ("output_text".toList) then acc2 ++ [c.text.getD []] else acc2)
            acc)
        acc =
      acc ++ ((output.filter (fun i => i.itemType = some ("message".toList))).flatMap
        (fun i => i.content.filter (fun c => c.ctype = some ("output_text".toList)))).map
        (fun c => c.text.getD []) := by
  induction output with
  | nil => intro acc; simp
  | cons item rest ih =>
    intro acc
    simp only [List.foldl_cons]
    by_cases hi : item.itemType = some ("message".toList)
    · rw [if_neg (not_not_intro hi), extract_content_foldl, ih,
        List.filter_cons_of_pos (by simpa using hi)]
      simp [List.append_assoc]
    · rw [if_pos hi, ih, List.filter_cons_of_neg (by simpa using hi)]

/-- C1 counterexample: with a message item whose `output_text` entries carry
texts `"a"`, `""`, `"b"`, the code joins only the non-empty texts (`"a\nb"`),
while the claimed join of every entry's text field gives `"a\n\nb"`. -/
theorem extract_output_text_claim_counterexample :
    extract_output_text
        [⟨some ("message".toList),
          [⟨some ("output_text".toList), some ("a".toList)⟩,
           ⟨some ("output_text".toList), some []⟩,
           ⟨some ("output_text".toList), some ("b".toList)⟩]⟩] =
      "a\nb".toList ∧
    extract_output_text_spec
        [⟨some ("message".toList),
          [⟨some ("output_text".toList), some ("a".toList)⟩,
           ⟨some ("output_text".toList), some []⟩,
           ⟨some ("output_text".toList), some ("b".toList)⟩]⟩] =
      "a\n\nb".toList ∧
    extract_output_text
        [⟨some ("message".toList),
          [⟨some ("output_text".toList), some ("a".toList)⟩,
           ⟨some ("output_text".toList), some []⟩,
           ⟨some ("output_text".toList), some ("b".toList)⟩]⟩] ≠
      extract_output_text_spec
        [⟨some ("message".toList),
          [⟨some ("output_text".toList), some ("a".toList)⟩,
           ⟨some ("output_text".toList), some []⟩,
           ⟨some ("output_text".toList), some ("b".toList)⟩]⟩] := by
  exact ⟨rfl, rfl, by decide⟩

/-- C1 (amended): `extract_output_text` returns the newline-join, in list
order, of the non-empty `text` fields of the `output_text`-typed content
entries of the `message`-typed output items; entries of other types, items
of other types, and empty or missing text fields contribute nothing. -/
theorem extract_output_text_joins_nonempty (output : List OutputItem) :
    extract_output_text output =
      pyJoin ("\n".toList)
        ((((output.filter (fun i => i.itemType = some ("message".toList))).flatMap
            (fun i => i.content.filter (fun c => c.ctype = some ("output_text".toList)))).map
          (fun c => c.text.getD [])).filter (fun t => ¬ t = [])) := by
  unfold extract_output_text
  rw [extract_output_foldl]
  simp

/-! ## C2 and C10: `normalize_drive_url` -/

theorem notInfixAppend (sep A M : List Char)
    (hA : ¬ (sep <:+: A)) (hM : ¬ (sep <:+: M))
    (hstr : ∀ k, 0 < k → k < sep.length → ¬ (sep.take k <:+ A ∧ sep.drop k <+: M)) :
    ¬ (sep <:+: (A ++ M)) := by
  intro h
  rcases infixAppendCases A sep M h with h1 | h2 | ⟨k, hk0, hkl, hs, hp⟩
  · exact hA h1
  · exact hM h2
  · exact hstr k hk0 hkl ⟨hs, hp⟩

theorem driveId_no_idEq_mid (id B : List Char) (hid : ∀ c ∈ id, isDriveIdChar c = true)
    (hB : ¬ ("id=".toList <:+: B))
    (hB2 : ¬ ((['d', '='] : List Char) <+: B)) (hB3 : ¬ ((['='] : List Char) <+: B)) :
    ¬ ("id=".toList <:+: (id ++ B)) := by
  refine notInfixAppend _ _ _ ?_ hB ?_
  · intro h
    exact absurd (hid '=' (h.subset (by decide))) (by decide)
  · intro k hk0 hkl hand
    have hk3 : k < 3 := by simpa using hkl
    interval_cases k
    · exact hB2 hand.2
    · exact hB3 hand.2

theorem driveId_no_fileD_mid (id B : List Char) (hid : ∀ c ∈ id, isDriveIdChar c = true)
    (hB : ¬ ("/file/d/".toList <:+: B)) :
    ¬ ("/file/d/".toList <:+: (id ++ B)) := by
  refine notInfixAppend _ _ _ ?_ hB ?_
  · intro h
    exact absurd (hid '/' (h.subset (by decide))) (by decide)
  · intro k hk0 hkl hand
    have hk8 : k < 8 := by simpa using hkl
    have hslash : '/' ∈ id := by
      have hsub := hand.1.subset
      interval_cases k
      · exact hsub (by decide)
      · exact hsub (by decide)
      · exact hsub (by decide)
      · exact hsub (by decide)
      · exact hsub (by decide)
      · exact hsub (by decide)
      · exact hsub (by decide)
    exact absurd (hid '/' hslash) (by decide)

/-- C2: for every Drive file id, the path-segment share URL
`https://drive.google.com/file/d/<id>/view?usp=sharing` and the
query-parameter share URL `https://drive.google.com/open?id=<id>&usp=sharing`
both normalize to the same canonical
`https://drive.google.com/uc?export=download&id=<id>`. -/
theorem normalize_drive_url_canonical (id : List Char)
    (hid : ∀ c ∈ id, isDriveIdChar c = true) :
    normalize_drive_url
        ("https://drive.google.com/file/d/".toList ++ id ++ "/view?usp=sharing".toList) =
      "https://drive.google.com/uc?export=download&id=".toList ++ id ∧
    normalize_drive_url
        ("https://drive.google.com/open?id=".toList ++ id ++ "&usp=sharing".toList) =
      "https://drive.google.com/uc?export=download&id=".toList ++ id := by
  constructor
  · rw [show "https://drive.google.com/file/d/".toList ++ id ++ "/view?usp=sharing".toList =
      "https://drive.google.com/file/d/".toList ++ (id ++ "/view?usp=sharing".toList) from by
        simp [List.append_assoc]]
    have hdrive : "drive.google.com".toList <:+:
        "https://drive.google.com/file/d/".toList ++ (id ++ "/view?usp=sharing".toList) :=
      ⟨"https://".toList, "/file/d/".toList ++ (id ++ "/view?usp=sharing".toList),
        by simp [List.append_assoc]⟩
    have hnoid : ¬ ("id=".toList <:+:
        "https://drive.google.com/file/d/".toList ++ (id ++ "/view?usp=sharing".toList)) := by
      refine notInfixAppend _ _ _ (by decide)
        (driveId_no_idEq_mid id _ hid (by decide) (by decide) (by decide)) ?_
      intro k hk0 hkl hand
      have hk3 : k < 3 := by simpa using hkl
      interval_cases k
      · exact absurd hand.1 (by decide)
      · exact absurd hand.1 (by decide)
    have hfd : "/file/d/".toList <:+:
        "https://drive.google.com/file/d/".toList ++ (id ++ "/view?usp=sharing".toList) :=
      ⟨"https://drive.google.com".toList, id ++ "/view?usp=sharing".toList,
        by simp [List.append_assoc]⟩
    have hsplit1 : pySplit ("/file/d/".toList)
        ("https://drive.google.com/file/d/".toList ++ (id ++ "/view?usp=sharing".toList)) =
        "https://drive.google.com".toList ::
          pySplit ("/file/d/".toList) (id ++ "/view?usp=sharing".toList) := by
      rw [show "https://drive.google.com/file/d/".toList ++ (id ++ "/view?usp=sharing".toList) =
        "https://drive.google.com".toList ++ "/file/d/".toList ++
          (id ++ "/view?usp=sharing".toList) from by simp [List.append_assoc]]
      exact pySplit_boundary _ _ _ (by decide) (by decide)
    have hsplit1b : pySplit ("/file/d/".toList) (id ++ "/view?usp=sharing".toList) =
        [id ++ "/view?usp=sharing".toList] := by
      refine pySplit_no_occ _ _ (by decide)
        (driveId_no_fileD_mid id _ hid (by decide))
    have hsplit2 : pySplit ("/".toList) (id ++ "/view?usp=sharing".toList) =
        id :: pySplit ("/".toList) ("view?usp=sharing".toList) := by
      rw [show id ++ "/view?usp=sharing".toList =
        id ++ "/".toList ++ "view?usp=sharing".toList from by simp [List.append_assoc]]
      refine pySplit_boundary _ _ _ (by decide) ?_
      intro h
      have : '/' ∈ id := by
        have h' : ("/".toList : List Char) <:+: id := by simpa using h
        exact (singleton_isInfix_iff '/' id).1 h'
      exact absurd (hid '/' this) (by decide)
    unfold normalize_drive_url
    rw [if_neg (not_not_intro hdrive), if_neg hnoid, if_pos hfd, hsplit1, hsplit1b]
    rw [show List.getLastD ["https://drive.google.com".toList,
      id ++ "/view?usp=sharing".toList] [] = id ++ "/view?usp=sharing".toList from rfl]
    rw [hsplit2]
    rfl
  · rw [show "https://drive.google.com/open?id=".toList ++ id ++ "&usp=sharing".toList =
      "https://drive.google.com/open?".toList ++ "id=".toList ++
        (id ++ "&usp=sharing".toList) from by simp [List.append_assoc]]
    have hdrive : "drive.google.com".toList <:+:
        "https://drive.google.com/open?".toList ++ "id=".toList ++
          (id ++ "&usp=sharing".toList) :=
      ⟨"https://".toList, "/open?id=".toList ++ (id ++ "&usp=sharing".toList),
        by simp [List.append_assoc]⟩
    have hq : "id=".toList <:+:
        "https://drive.google.com/open?".toList ++ "id=".toList ++
          (id ++ "&usp=sharing".toList) :=
      ⟨"https://drive.google.com/open?".toList, id ++ "&usp=sharing".toList, rfl⟩
    have hsplitQ : pySplit ("id=".toList)
        ("https://drive.google.com/open?".toList ++ "id=".toList ++
          (id ++ "&usp=sharing".toList)) =
        "https://drive.google.com/open?".toList ::
          pySplit ("id=".toList) (id ++ "&usp=sharing".toList) :=
      pySplit_boundary _ _ _ (by decide) (by decide)
    have hsplitQb : pySplit ("id=".toList) (id ++ "&usp=sharing".toList) =
        [id ++ "&usp=sharing".toList] := by
      refine pySplit_no_occ _ _ (by decide) ?_
      exact driveId_no_idEq_mid id _ hid (by decide) (by decide) (by decide)
    have hsplitAmp : pySplit ("&".toList) (id ++ "&usp=sharing".toList) =
        id :: pySplit ("&".toList) ("usp=sharing".toList) := by
      rw [show id ++ "&usp=sharing".toList =
        id ++ "&".toList ++ "usp=sharing".toList from by simp [List.append_assoc]]
      refine pySplit_boundary _ _ _ (by decide) ?_
      intro h
      have h' : ("&".toList : List Char) <:+: id := by simpa using h
      exact absurd (hid '&' ((singleton_isInfix_iff '&' id).1 h')) (by decide)
    unfold normalize_drive_url
    rw [if_neg (not_not_intro hdrive), if_pos hq, hsplitQ, hsplitQb]
    rw [show List.getLastD ["https://drive.google.com/open?".toList,
      id ++ "&usp=sharing".toList] [] = id ++ "&usp=sharing".toList from rfl]
    rw [hsplitAmp]
    rfl

/-- Witness for C2 at the concrete file id `AbC-12_3`. -/
theorem normalize_drive_url_canonical_witness :
    normalize_drive_url
        ("https://drive.google.com/file/d/".toList ++ "AbC-12_3".toList ++
          "/view?usp=sharing".toList) =
      "https://drive.google.com/uc?export=download&id=".toList ++ "AbC-12_3".toList ∧
    normalize_drive_url
        ("https://drive.google.com/open?id=".toList ++ "AbC-12_3".toList ++
          "&usp=sharing".toList) =
      "https://drive.google.com/uc?export=download&id=".toList ++ "AbC-12_3".toList :=
  normalize_drive_url_canonical ("AbC-12_3".toList) (by decide)

theorem normalize_id_no_drive (url : List Char)
    (hd : ¬ ("drive.google.com".toList <:+: url)) :
    normalize_drive_url url = url := by
  unfold normalize_drive_url
  rw [if_pos hd]

theorem normalize_id_no_pattern (url : List Char)
    (hd : "drive.google.com".toList <:+: url)
    (hq : ¬ ("id=".toList <:+: url)) (hp : ¬ ("/file/d/".toList <:+: url)) :
    normalize_drive_url url = url := by
  unfold normalize_drive_url
  rw [if_neg (not_not_intro hd), if_neg hq, if_neg hp]

theorem normalize_q_eq (url : List Char)
    (hd : "drive.google.com".toList <:+: url) (hq : "id=".toList <:+: url) :
    normalize_drive_url url =
      "https://drive.google.com/uc?export=download&id=".toList ++ extractedFileId url := by
  unfold normalize_drive_url extractedFileId
  rw [if_neg (not_not_intro hd), if_pos hq, if_neg (not_not_intro hd), if_pos hq]

theorem normalize_fd_eq (url : List Char)
    (hd : "drive.google.com".toList <:+: url) (hq : ¬ ("id=".toList <:+: url))
    (hp : "/file/d/".toList <:+: url) :
    normalize_drive_url url =
      "https://drive.google.com/uc?export=download&id=".toList ++ extractedFileId url := by
  unfold normalize_drive_url extractedFileId
  rw [if_neg (not_not_intro hd), if_neg hq, if_pos hp,
    if_neg (not_not_intro hd), if_neg hq, if_pos hp]

theorem normalize_canonical_fixed (fid : List Char)
    (h1 : ¬ ("id=".toList <:+: fid)) (h2 : ¬ ('&' ∈ fid)) :
    normalize_drive_url ("https://drive.google.com/uc?export=download&id=".toList ++ fid) =
      "https://drive.google.com/uc?export=download&id=".toList ++ fid := by
  rw [show "https://drive.google.com/uc?export=download&id=".toList ++ fid =
    "https://drive.google.com/uc?export=download&".toList ++ "id=".toList ++ fid from by
      simp [List.append_assoc]]
  have hdrive : "drive.google.com".toList <:+:
      "https://drive.google.com/uc?export=download&".toList ++ "id=".toList ++ fid :=
    ⟨"https://".toList, "/uc?export=download&".toList ++ ("id=".toList ++ fid),
      by simp [List.append_assoc]⟩
  have hq : "id=".toList <:+:
      "https://drive.google.com/uc?export=download&".toList ++ "id=".toList ++ fid :=
    ⟨"https://drive.google.com/uc?export=download&".toList, fid, rfl⟩
  have hb : pySplit ("id=".toList)
      ("https://drive.google.com/uc?export=download&".toList ++ "id=".toList ++ fid) =
      "https://drive.google.com/uc?export=download&".toList :: pySplit ("id=".toList) fid :=
    pySplit_boundary _ _ _ (by decide) (by decide)
  have hb2 : pySplit ("id=".toList) fid = [fid] := pySplit_no_occ _ _ (by decide) h1
  have hamp : pySplit ("&".toList) fid = [fid] :=
    pySplit_no_occ _ _ (by decide)
      (fun h => h2 ((singleton_isInfix_iff '&' fid).1 (by simpa using h)))
  unfold normalize_drive_url
  rw [if_neg (not_not_intro hdrive), if_pos hq, hb, hb2]
  rw [show List.getLastD ["https://drive.google.com/uc?export=download&".toList, fid] [] =
    fid from rfl, hamp]
  rfl

/-- C10: `normalize_drive_url` is the identity on URLs without
`drive.google.com` and on Drive URLs with neither an `id=` nor a `/file/d/`
pattern; and it is idempotent whenever the extracted file id contains neither
`&` nor `id=` (its canonical output is a fixed point). -/
theorem normalize_drive_url_identity_and_idempotent :
    (∀ url : List Char, ¬ ("drive.google.com".toList <:+: url) →
      normalize_drive_url url = url) ∧
    (∀ url : List Char, "drive.google.com".toList <:+: url →
      ¬ ("id=".toList <:+: url) → ¬ ("/file/d/".toList <:+: url) →
      normalize_drive_url url = url) ∧
    (∀ url : List Char, ¬ ('&' ∈ extractedFileId url) →
      ¬ ("id=".toList <:+: extractedFileId url) →
      normalize_drive_url (normalize_drive_url url) = normalize_drive_url url) := by
  refine ⟨normalize_id_no_drive, normalize_id_no_pattern, ?_⟩
  intro url hAmp hIdE
  by_cases hd : "drive.google.com".toList <:+: url
  · by_cases hq : "id=".toList <:+: url
    · rw [normalize_q_eq url hd hq]
      exact normalize_canonical_fixed _ hIdE hAmp
    · by_cases hp : "/file/d/".toList <:+: url
      · rw [normalize_fd_eq url hd hq hp]
        exact normalize_canonical_fixed _ hIdE hAmp
      · rw [normalize_id_no_pattern url hd hq hp, normalize_id_no_pattern url hd hq hp]
  · rw [normalize_id_no_drive url hd, normalize_id_no_drive url hd]

/-- Witness for C10 at three concrete URLs. -/
theorem normalize_drive_url_identity_and_idempotent_witness :
    normalize_drive_url ("https://example.com/a.png".toList) =
      "https://example.com/a.png".toList ∧
    normalize_drive_url ("https://drive.google.com/preview".toList) =
      "https://drive.google.com/preview".toList ∧
    normalize_drive_url
        (normalize_drive_url ("https://drive.google.com/open?id=ABC123&x=1".toList)) =
      normalize_drive_url ("https://drive.google.com/open?id=ABC123&x=1".toList) := by
  have h := normalize_drive_url_identity_and_idempotent
  exact ⟨h.1 _ (by decide), h.2.1 _ (by decide) (by decide) (by decide),
    h.2.2 _ (by decide) (by decide)⟩

/-! ## C9: the JSON decode failure is always caught -/

/-- C9: for every non-empty extracted output text that fails to decode as
JSON, the display step returns (does not raise) and delivers exactly the raw
string through the warned fallback path. -/
theorem display_step_catches_decode_failure (s : List Char) (hne : s ≠ [])
    (hfail : pyLoads s = none) :
    display_step s = Except.ok (DisplayOutcome.rawTextWarned s) := by
  unfold display_step
  rw [if_neg hne, hfail]

/-- Witness for C9 at the non-JSON output `not valid json`. -/
theorem display_step_catches_decode_failure_witness :
    display_step ("not valid json".toList) =
      Except.ok (DisplayOutcome.rawTextWarned ("not valid json".toList)) :=
  display_step_catches_decode_failure ("not valid json".toList) (by decide) (by rfl)

/-! ## Decimal printing and parsing -/

theorem decDigit_digit (d : Nat) (h : d < 10) : isDigitChar (decDigit d) = true := by
  interval_cases d <;> decide

theorem digitVal_decDigit (d : Nat) (h : d < 10) : digitVal (decDigit d) = d := by
  interval_cases d <;> decide

theorem decDigit_ne_zeroChar (d : Nat) (h : d < 10) (h0 : d ≠ 0) : decDigit d ≠ '0' := by
  interval_cases d <;> simp_all <;> decide

theorem natCharsGo_extra : ∀ n f₁ f₂, n < f₁ → n < f₂ → natCharsGo f₁ n = natCharsGo f₂ n := by
  intro n
  induction n using Nat.strong_induction_on with
  | _ n ih =>
    intro f₁ f₂ h1 h2
    cases f₁ with
    | zero => omega
    | succ g₁ =>
      cases f₂ with
      | zero => omega
      | succ g₂ =>
        simp only [natCharsGo]
        by_cases h10 : n < 10
        · simp [h10]
        · simp only [if_neg h10]
          have hdiv : n / 10 < n := Nat.div_lt_self (by omega) (by omega)
          rw [ih (n / 10) hdiv g₁ g₂ (by omega) (by omega)]

theorem natChars_lt10 (n : Nat) (h : n < 10) : natChars n = [decDigit n] := by
  simp [natChars, natCharsGo, h]

theorem natChars_unfold (n : Nat) (h : 10 ≤ n) :
    natChars n = natChars (n / 10) ++ [decDigit (n % 10)] := by
  have hdiv : n / 10 < n := Nat.div_lt_self (by omega) (by omega)
  show natCharsGo (n + 1) n = _
  simp only [natCharsGo, if_neg (by omega : ¬ n < 10)]
  rw [natCharsGo_extra (n / 10) n (n / 10 + 1) (by omega) (by omega)]
  rfl

theorem natChars_ne_nil (n : Nat) : natChars n ≠ [] := by
  by_cases h : n < 10
  · rw [natChars_lt10 n h]; simp
  · rw [natChars_unfold n (by omega)]; simp

theorem natChars_digits (n : Nat) : ∀ c ∈ natChars n, isDigitChar c = true := by
  induction n using Nat.strong_induction_on with
  | _ n ih =>
    by_cases h : n < 10
    · rw [natChars_lt10 n h]
      intro c hc
      simp at hc
      subst hc
      exact decDigit_digit n h
    · rw [natChars_unfold n (by omega)]
      intro c hc
      rcases List.mem_append.1 hc with hc | hc
      · exact ih (n / 10) (Nat.div_lt_self (by omega) (by omega)) c hc
      · simp at hc
        subst hc
        exact decDigit_digit _ (Nat.mod_lt _ (by omega))

theorem natChars_head_pos (n : Nat) (h : 0 < n) :
    ∃ c t, natChars n = c :: t ∧ c ≠ '0' ∧ isDigitChar c = true := by
  induction n using Nat.strong_induction_on with
  | _ n ih =>
    by_cases h10 : n < 10
    · exact ⟨decDigit n, [], natChars_lt10 n h10,
        decDigit_ne_zeroChar n h10 (by omega), decDigit_digit n h10⟩
    · have hdiv : n / 10 < n := Nat.div_lt_self (by omega) (by omega)
      obtain ⟨c, t, hct, hne, hdig⟩ := ih (n / 10) hdiv (by omega)
      exact ⟨c, t ++ [decDigit (n % 10)], by rw [natChars_unfold n (by omega), hct]; rfl,
        hne, hdig⟩

theorem natChars_foldl (n : Nat) : ∀ a : Nat,
    (natChars n).foldl (fun acc c => acc * 10 + digitVal c) a =
      a * 10 ^ (natChars n).length + n := by
  induction n using Nat.strong_induction_on with
  | _ n ih =>
    intro a
    by_cases h : n < 10
    · rw [natChars_lt10 n h]
      simp [digitVal_decDigit n h]
    · rw [natChars_unfold n (by omega), List.foldl_append,
        ih (n / 10) (Nat.div_lt_self (by omega) (by omega)) a]
      simp only [List.foldl_cons, List.foldl_nil, List.length_append, List.length_cons,
        List.length_nil]
      rw [digitVal_decDigit _ (Nat.mod_lt _ (by omega))]
      have hmod : 10 * (n / 10) + n % 10 = n := Nat.div_add_mod n 10
      have hpow : 10 ^ ((natChars (n / 10)).length + (0 + 1)) =
          10 ^ (natChars (n / 10)).length * 10 := by
        rw [Nat.zero_add, pow_succ]
      rw [hpow]
      generalize 10 ^ (natChars (n / 10)).length = k
      ring_nf
      omega

theorem parseDigitsAcc_spec (s : List Char) (hs : ∀ c ∈ s, isDigitChar c = true) :
    ∀ (a : Nat) (rest : List Char), (∀ c, rest.head? = some c → isDigitChar c = false) →
      parseDigitsAcc a (s ++ rest) =
        (s.foldl (fun acc c => acc * 10 + digitVal c) a, rest) := by
  induction s with
  | nil =>
    intro a rest hrest
    cases rest with
    | nil => rfl
    | cons c r =>
      show (if isDigitChar c then _ else _) = _
      rw [if_neg (by simp [hrest c rfl])]
      rfl
  | cons c t ih =>
    intro a rest hrest
    show (if isDigitChar c then _ else _) = _
    rw [if_pos (by simp [hs c (by simp)])]
    exact ih (fun d hd => hs d (by simp [hd])) _ rest hrest

theorem parseNumBody_cons (c : Char) (rest : List Char) :
    parseNumBody (c :: rest) =
      if c = '0' then some (0, rest)
      else if isDigitChar c then some (parseDigitsAcc (digitVal c) rest)
      else none := rfl

theorem parseNumber_cons (c : Char) (rest : List Char) :
    parseNumber (c :: rest) =
      if c = '-' then (parseNumBody rest).map (fun p => (-(p.1 : Int), p.2))
      else (parseNumBody (c :: rest)).map (fun p => ((p.1 : Int), p.2)) := rfl

theorem restOk_head_not_digit (rest : List Char) (h : RestOk rest) :
    ∀ c, rest.head? = some c → isDigitChar c = false := by
  intro c hc
  cases rest with
  | nil => simp at hc
  | cons d r =>
    simp at hc
    subst hc
    rcases h with h | h <;> subst h <;> decide

theorem parseNumBody_natChars (n : Nat) (rest : List Char)
    (hrest : ∀ c, rest.head? = some c → isDigitChar c = false) :
    parseNumBody (natChars n ++ rest) = some (n, rest) := by
  rcases Nat.eq_zero_or_pos n with rfl | hpos
  · rw [natChars_lt10 0 (by omega)]
    rfl
  · obtain ⟨c, t, hct, hne0, hdig⟩ := natChars_head_pos n hpos
    have hdigs : ∀ d ∈ t, isDigitChar d = true := by
      intro d hd
      exact natChars_digits n d (by rw [hct]; simp [hd])
    rw [hct]
    show parseNumBody (c :: (t ++ rest)) = _
    rw [parseNumBody_cons, if_neg hne0, if_pos hdig,
      parseDigitsAcc_spec t hdigs _ rest hrest]
    have hfold := natChars_foldl n 0
    rw [hct] at hfold
    simp only [List.foldl_cons, Nat.zero_mul, Nat.zero_add] at hfold
    rw [hfold]

theorem parseNumber_intChars (i : Int) (rest : List Char)
    (hrest : ∀ c, rest.head? = some c → isDigitChar c = false) :
    parseNumber (intChars i ++ rest) = some (i, rest) := by
  unfold intChars
  by_cases h : i < 0
  · rw [if_pos h]
    show parseNumber ('-' :: (natChars i.natAbs ++ rest)) = _
    rw [parseNumber_cons, if_pos rfl, parseNumBody_natChars i.natAbs rest hrest]
    have hi : (-(i.natAbs : Int)) = i := by omega
    simp [hi]
    rw [abs_of_neg h]
    ring
  · rw [if_neg h]
    obtain ⟨c, t, hct⟩ : ∃ c t, natChars i.natAbs = c :: t := by
      cases hcc : natChars i.natAbs with
      | nil => exact absurd hcc (natChars_ne_nil _)
      | cons c t => exact ⟨c, t, rfl⟩
    have hdig : isDigitChar c = true := natChars_digits _ c (by rw [hct]; simp)
    have hcne : c ≠ '-' := by
      intro hEq
      rw [hEq] at hdig
      exact absurd hdig (by decide)
    rw [hct]
    show parseNumber (c :: (t ++ rest)) = _
    rw [parseNumber_cons, if_neg hcne]
    have : parseNumBody (c :: (t ++ rest)) = some (i.natAbs, rest) := by
      rw [show c :: (t ++ rest) = (c :: t) ++ rest from rfl, ← hct]
      exact parseNumBody_natChars i.natAbs rest hrest
    rw [this]
    have hi : ((i.natAbs : Int)) = i := by omega
    simp [hi]

/-! ## String escaping round trip -/

theorem hexVal_hexDigitChar (d : Nat) (h : d < 16) : hexVal (hexDigitChar d) = some d := by
  interval_cases d <;> decide

theorem psb_quote (rest : List Char) : parseStringBody ('"' :: rest) = some ([], rest) := by
  rw [parseStringBody.eq_def]
  show (if ('"' : Char) = '"' then some (([] : List Char), rest) else _) = _
  rw [if_pos rfl]

theorem psb_esc (e : Char) (rest : List Char) :
    parseStringBody ('\\' :: e :: rest) =
      (if e = '"' then (parseStringBody rest).map (fun p => ('"' :: p.1, p.2))
      else if e = '\\' then (parseStringBody rest).map (fun p => ('\\' :: p.1, p.2))
      else if e = '/' then (parseStringBody rest).map (fun p => ('/' :: p.1, p.2))
      else if e = 'n' then (parseStringBody rest).map (fun p => ('\n' :: p.1, p.2))
      else if e = 't' then (parseStringBody rest).map (fun p => ('\t' :: p.1, p.2))
      else if e = 'r' then (parseStringBody rest).map (fun p => ('\r' :: p.1, p.2))
      else if e = 'b' then (parseStringBody rest).map (fun p => (Char.ofNat 8 :: p.1, p.2))
      else if e = 'f' then (parseStringBody rest).map (fun p => (Char.ofNat 12 :: p.1, p.2))
      else if e = 'u' then
        match rest with
        | h1 :: h2 :: h3 :: h4 :: rest3 =>
          match hexVal h1, hexVal h2, hexVal h3, hexVal h4 with
          | some a, some b, some c2, some d =>
            (parseStringBody rest3).map
              (fun p => (Char.ofNat (((a * 16 + b) * 16 + c2) * 16 + d) :: p.1, p.2))
          | _, _, _, _ => none
        | _ => none
      else none) := by
  rw [parseStringBody.eq_def]
  show (if ('\\' : Char) = '"' then _ else _) = _
  rw [if_neg (by decide), if_pos rfl]

theorem psb_other (c : Char) (rest : List Char) (h1 : ¬ c = '"') (h2 : ¬ c = '\\')
    (h3 : ¬ c.toNat < 32) :
    parseStringBody (c :: rest) = (parseStringBody rest).map (fun p => (c :: p.1, p.2)) := by
  rw [parseStringBody.eq_def]
  show (if c = '"' then _ else _) = _
  rw [if_neg h1, if_neg h2, if_neg h3]

theorem parseStringBody_render (s : List Char) : ∀ rest : List Char,
    parseStringBody (s.flatMap escapeChar ++ ('"' :: rest)) = some (s, rest) := by
  induction s with
  | nil =>
    intro rest
    show parseStringBody ('"' :: rest) = _
    rw [psb_quote]
  | cons c t ih =>
    intro rest
    rw [List.flatMap_cons, List.append_assoc]
    by_cases h1 : c = '"'
    · subst h1
      rw [show escapeChar '"' = ['\\', '"'] from rfl]
      simp only [List.cons_append, List.nil_append]
      rw [psb_esc, if_pos rfl, ih]
      rfl
    by_cases h2 : c = '\\'
    · subst h2
      rw [show escapeChar '\\' = ['\\', '\\'] from rfl]
      simp only [List.cons_append, List.nil_append]
      rw [psb_esc, if_neg (by decide), if_pos rfl, ih]
      rfl
    by_cases h3 : c = '\n'
    · subst h3
      rw [show escapeChar '\n' = ['\\', 'n'] from rfl]
      simp only [List.cons_append, List.nil_append]
      rw [psb_esc, if_neg (by decide), if_neg (by decide), if_neg (by decide),
        if_pos rfl, ih]
      rfl
    by_cases h4 : c = '\t'
    · subst h4
      rw [show escapeChar '\t' = ['\\', 't'] from rfl]
      simp only [List.cons_append, List.nil_append]
      rw [psb_esc, if_neg (by decide), if_neg (by decide), if_neg (by decide),
        if_neg (by decide), if_pos rfl, ih]
      rfl
    by_cases h5 : c = '\r'
    · subst h5
      rw [show escapeChar '\r' = ['\\', 'r'] from rfl]
      simp only [List.cons_append, List.nil_append]
      rw [psb_esc, if_neg (by decide), if_neg (by decide), if_neg (by decide),
        if_neg (by decide), if_neg (by decide), if_pos rfl, ih]
      rfl
    by_cases h6 : c = Char.ofNat 8
    · subst h6
      rw [show escapeChar (Char.ofNat 8) = ['\\', 'b'] from rfl]
      simp only [List.cons_append, List.nil_append]
      rw [psb_esc, if_neg (by decide), if_neg (by decide), if_neg (by decide),
        if_neg (by decide), if_neg (by decide), if_neg (by decide), if_pos rfl, ih]
      rfl
    by_cases h7 : c = Char.ofNat 12
    · subst h7
      rw [show escapeChar (Char.ofNat 12) = ['\\', 'f'] from rfl]
      simp only [List.cons_append, List.nil_append]
      rw [psb_esc, if_neg (by decide), if_neg (by decide), if_neg (by decide),
        if_neg (by decide), if_neg (by decide), if_neg (by decide), if_neg (by decide),
        if_pos rfl, ih]
      rfl
    by_cases h8 : c.toNat < 32
    · rw [show escapeChar c = ['\\', 'u', '0', '0', hexDigitChar (c.toNat / 16),
        hexDigitChar (c.toNat % 16)] from by
          unfold escapeChar
          rw [if_neg h1, if_neg h2, if_neg h3, if_neg h4, if_neg h5, if_neg h6,
            if_neg h7, if_pos h8]]
      simp only [List.cons_append, List.nil_append]
      rw [psb_esc, if_neg (by decide), if_neg (by decide), if_neg (by decide),
        if_neg (by decide), if_neg (by decide), if_neg (by decide), if_neg (by decide),
        if_neg (by decide), if_pos rfl]
      have hdiv : c.toNat / 16 < 16 := by omega
      have hmod : c.toNat % 16 < 16 := by omega
      show (match hexVal '0', hexVal '0', hexVal (hexDigitChar (c.toNat / 16)),
          hexVal (hexDigitChar (c.toNat % 16)) with
        | some a, some b, some c2, some d =>
          (parseStringBody (t.flatMap escapeChar ++ '"' :: rest)).map
            (fun p => (Char.ofNat (((a * 16 + b) * 16 + c2) * 16 + d) :: p.1, p.2))
        | _, _, _, _ => none) = some (c :: t, rest)
      rw [show hexVal '0' = some 0 from by decide,
        hexVal_hexDigitChar _ hdiv, hexVal_hexDigitChar _ hmod]
      show (parseStringBody _).map _ = _
      rw [ih]
      have hcode : ((0 * 16 + 0) * 16 + c.toNat / 16) * 16 + c.toNat % 16 = c.toNat := by
        omega
      rw [hcode, Char.ofNat_toNat]
      rfl
    · rw [show escapeChar c = [c] from by
          unfold escapeChar
          rw [if_neg h1, if_neg h2, if_neg h3, if_neg h4, if_neg h5, if_neg h6,
            if_neg h7, if_neg h8]]
      simp only [List.cons_append, List.nil_append]
      rw [psb_other c _ h1 h2 h8, ih]
      rfl

/-! ## Whitespace and rendering structure -/

theorem skipWs_ws_append (w X : List Char) (hw : ∀ c ∈ w, isJsonWs c = true) :
    skipWs (w ++ X) = skipWs X := by
  unfold skipWs
  rw [List.dropWhile_append, if_pos]
  rw [List.isEmpty_iff, List.dropWhile_eq_nil_iff]
  exact hw

theorem skipWs_cons_nonws (c : Char) (X : List Char) (hc : isJsonWs c = false) :
    skipWs (c :: X) = c :: X := by
  simp [skipWs, List.dropWhile_cons, hc]

theorem newline_indent_ws (l : Nat) : ∀ c ∈ '\n' :: indentChars l, isJsonWs c = true := by
  intro c hc
  rcases List.mem_cons.1 hc with rfl | hc
  · decide
  · rcases (List.mem_replicate.1 hc).2 with rfl
    decide

theorem digit_head_facts (c : Char) (h : isDigitChar c = true) :
    isJsonWs c = false ∧ c ≠ ']' ∧ c ≠ rbrace ∧ c ≠ ',' := by
  refine ⟨?_, ?_, ?_, ?_⟩
  · by_cases hw : isJsonWs c = true
    · simp only [isJsonWs, decide_eq_true_eq] at hw
      rcases hw with rfl | rfl | rfl | rfl <;> exact absurd h (by decide)
    · simpa using hw
  · intro hEq; rw [hEq] at h; exact absurd h (by decide)
  · intro hEq; rw [hEq] at h; exact absurd h (by decide)
  · intro hEq; rw [hEq] at h; exact absurd h (by decide)

theorem renderVal_head (l : Nat) (v : Json) :
    ∃ c t, renderVal l v = c :: t ∧ isJsonWs c = false ∧ c ≠ ']' ∧ c ≠ rbrace ∧ c ≠ ',' := by
  cases v with
  | null => exact ⟨'n', _, rfl, by decide, by decide, by decide, by decide⟩
  | bool b =>
    cases b with
    | true => exact ⟨'t', _, rfl, by decide, by decide, by decide, by decide⟩
    | false => exact ⟨'f', _, rfl, by decide, by decide, by decide, by decide⟩
  | num i =>
    show ∃ c t, intChars i = c :: t ∧ _
    unfold intChars
    by_cases h : i < 0
    · rw [if_pos h]
      exact ⟨'-', _, rfl, by decide, by decide, by decide, by decide⟩
    · rw [if_neg h]
      obtain ⟨c, t, hct⟩ : ∃ c t, natChars i.natAbs = c :: t := by
        cases hcc : natChars i.natAbs with
        | nil => exact absurd hcc (natChars_ne_nil _)
        | cons c t => exact ⟨c, t, rfl⟩
      have hdig := natChars_digits i.natAbs c (by rw [hct]; simp)
      obtain ⟨hw, hb, hbr, hcm⟩ := digit_head_facts c hdig
      exact ⟨c, t, hct, hw, hb, hbr, hcm⟩
  | str s => exact ⟨'"', _, rfl, by decide, by decide, by decide, by decide⟩
  | arr xs =>
    cases xs with
    | nil => exact ⟨'[', _, rfl, by decide, by decide, by decide, by decide⟩
    | cons x xs => exact ⟨'[', _, rfl, by decide, by decide, by decide, by decide⟩
  | obj ms =>
    cases ms with
    | nil => exact ⟨lbrace, _, rfl, by decide, by decide, by decide, by decide⟩
    | cons m ms => exact ⟨lbrace, _, rfl, by decide, by decide, by decide, by decide⟩

theorem fcost_arr (xs : List Json) : fcost (Json.arr xs) = 2 + sumCostArr xs := by
  rw [fcost, sumCostArr, List.attach_map_val xs (fun x => fcost x + 1)]

theorem fcost_obj (ms : List (List Char × Json)) :
    fcost (Json.obj ms) = 2 + sumCostObj ms := by
  rw [fcost, sumCostObj, List.attach_map_val ms (fun m => fcost m.2 + 1)]

theorem fcost_pos (v : Json) : 1 ≤ fcost v := by
  cases v <;> simp [fcost] <;> omega

theorem consMember_fresh (k : List Char) (v : Json) (ms : List (List Char × Json))
    (h : ¬ k ∈ ms.map Prod.fst) : consMember k v ms = (k, v) :: ms := by
  unfold consMember
  rw [List.find?_eq_none.2]
  intro m hm
  simp only [decide_eq_true_eq]
  intro hEq
  exact h (by exact List.mem_map.2 ⟨m, hm, hEq⟩)

/-! ## One-step evaluation lemmas for the parsers -/

theorem parseVal_eval (f : Nat) (s : List Char) (c : Char) (T : List Char)
    (hskip : skipWs s = c :: T) :
    parseVal (f + 1) s =
      (if c = '"' then (parseStringBody T).map (fun p => (Json.str p.1, p.2))
      else if c = lbrace then parseMembersStart f T
      else if c = '[' then parseElemsStart f T
      else if c = 't' then matchTrue T
      else if c = 'f' then matchFalse T
      else if c = 'n' then matchNull T
      else (parseNumber (c :: T)).map (fun p => (Json.num p.1, p.2))) := by
  simp only [parseVal, hskip]

theorem parseElemsStart_eval (f : Nat) (s : List Char) (c : Char) (T : List Char)
    (hskip : skipWs s = c :: T) :
    parseElemsStart (f + 1) s =
      (if c = ']' then some (Json.arr [], T)
      else
        match parseVal f (c :: T) with
        | none => none
        | some (v, r2) =>
          match parseElemsTail f r2 with
          | none => none
          | some (vs, r3) => some (Json.arr (v :: vs), r3)) := by
  simp only [parseElemsStart, hskip]

theorem parseElemsTail_eval (f : Nat) (s : List Char) (c : Char) (T : List Char)
    (hskip : skipWs s = c :: T) :
    parseElemsTail (f + 1) s =
      (if c = ']' then some ([], T)
      else if c = ',' then
        match parseVal f T with
        | none => none
        | some (v, r2) =>
          match parseElemsTail f r2 with
          | none => none
          | some (vs, r3) => some (v :: vs, r3)
      else none) := by
  simp only [parseElemsTail, hskip]

theorem parseMembersStart_eval (f : Nat) (s : List Char) (c : Char) (T : List Char)
    (hskip : skipWs s = c :: T) :
    parseMembersStart (f + 1) s =
      (if c = rbrace then some (Json.obj [], T)
      else if c = '"' then
        match parseStringBody T with
        | none => none
        | some (k, r2) =>
          match skipWs r2 with
          | ':' :: r3 =>
            match parseVal f r3 with
            | none => none
            | some (v, r4) =>
              match parseMembersTail f r4 with
              | none => none
              | some (ms, r5) => some (Json.obj (consMember k v ms), r5)
          | _ => none
      else none) := by
  simp only [parseMembersStart, hskip]

theorem parseMembersTail_eval (f : Nat) (s : List Char) (c : Char) (T : List Char)
    (hskip : skipWs s = c :: T) :
    parseMembersTail (f + 1) s =
      (if c = rbrace then some ([], T)
      else if c = ',' then
        match skipWs T with
        | '"' :: r2 =>
          match parseStringBody r2 with
          | none => none
          | some (k, r3) =>
            match skipWs r3 with
            | ':' :: r4 =>
              match parseVal f r4 with
              | none => none
              | some (v, r5) =>
                match parseMembersTail f r5 with
                | none => none
                | some (ms, r6) => some (consMember k v ms, r6)
            | _ => none
        | _ => none
      else none) := by
  simp only [parseMembersTail, hskip]

/-! ## RestOk facts -/

theorem restOk_cons_comma (Z : List Char) : RestOk (',' :: Z) := Or.inl rfl

theorem restOk_cons_newline (Z : List Char) : RestOk ('\n' :: Z) := Or.inr rfl

theorem restOk_arrTail (Li : Nat) (xs : List Json) (Z : List Char) :
    RestOk (renderArrTail Li xs ++ '\n' :: Z) := by
  cases xs with
  | nil =>
    show RestOk ([] ++ '\n' :: Z)
    exact restOk_cons_newline Z
  | cons x xs =>
    rw [renderArrTail.eq_def]
    exact restOk_cons_comma _

theorem restOk_objTail (Li : Nat) (ms : List (List Char × Json)) (Z : List Char) :
    RestOk (renderObjTail Li ms ++ '\n' :: Z) := by
  cases ms with
  | nil =>
    show RestOk ([] ++ '\n' :: Z)
    exact restOk_cons_newline Z
  | cons m ms =>
    rw [renderObjTail.eq_def]
    exact restOk_cons_comma _

theorem num_head_not_markers (c : Char) (h : isDigitChar c = true ∨ c = '-') :
    ¬ c = '"' ∧ ¬ c = lbrace ∧ ¬ c = '[' ∧ ¬ c = 't' ∧ ¬ c = 'f' ∧ ¬ c = 'n' := by
  rcases h with h | rfl
  · refine ⟨?_, ?_, ?_, ?_, ?_, ?_⟩ <;>
      (intro hEq; rw [hEq] at h; exact absurd h (by decide))
  · exact ⟨by decide, by decide, by decide, by decide, by decide, by decide⟩

/-! ## The parser recovers every rendered value -/

theorem sumCostArr_cons (x : Json) (xs : List Json) :
    sumCostArr (x :: xs) = fcost x + 1 + sumCostArr xs := by
  simp [sumCostArr]

theorem sumCostObj_cons (m : List Char × Json) (ms : List (List Char × Json)) :
    sumCostObj (m :: ms) = fcost m.2 + 1 + sumCostObj ms := by
  simp [sumCostObj]

theorem renderVal_arrCons (l : Nat) (x : Json) (xs : List Json) :
    renderVal l (Json.arr (x :: xs)) =
      '[' :: '\n' :: (indentChars (l + 1) ++ (renderVal (l + 1) x ++
        (renderArrTail (l + 1) xs ++ ('\n' :: (indentChars l ++ [']']))))) := by
  rw [renderVal]
  simp [List.append_assoc]

theorem renderVal_objCons (l : Nat) (m : List Char × Json)
    (ms : List (List Char × Json)) :
    renderVal l (Json.obj (m :: ms)) =
      lbrace :: '\n' :: (indentChars (l + 1) ++ (renderMember (l + 1) m ++
        (renderObjTail (l + 1) ms ++ ('\n' :: (indentChars l ++ [rbrace]))))) := by
  rw [renderVal]
  simp [List.append_assoc]

theorem renderArrTail_cons (l : Nat) (x : Json) (xs : List Json) :
    renderArrTail l (x :: xs) =
      ',' :: '\n' :: (indentChars l ++ (renderVal l x ++ renderArrTail l xs)) := by
  rw [renderArrTail]
  simp [List.append_assoc]

theorem renderObjTail_cons (l : Nat) (m : List Char × Json)
    (ms : List (List Char × Json)) :
    renderObjTail l (m :: ms) =
      ',' :: '\n' :: (indentChars l ++ (renderMember l m ++ renderObjTail l ms)) := by
  rw [renderObjTail]
  simp [List.append_assoc]

theorem renderMember_eq (l : Nat) (k : List Char) (v : Json) :
    renderMember l (k, v) =
      '"' :: (k.flatMap escapeChar ++ ('"' :: (':' :: ' ' :: renderVal l v))) := by
  rw [renderMember]
  show renderString k ++ (':' :: ' ' :: renderVal l v) = _
  rw [renderString]
  simp [List.append_assoc]

theorem wf_arr_inv {xs : List Json} (h : WfJson (Json.arr xs)) :
    ∀ x ∈ xs, WfJson x := by
  cases h with
  | arr _ h => exact h

theorem wf_obj_inv {ms : List (List Char × Json)} (h : WfJson (Json.obj ms)) :
    (ms.map Prod.fst).Nodup ∧ ∀ m ∈ ms, WfJson m.2 := by
  cases h with
  | obj _ hn hv => exact ⟨hn, hv⟩

theorem parse_render : ∀ fuel : Nat,
    (∀ (v : Json) (l : Nat) (W rest : List Char), WfJson v →
      (∀ c ∈ W, isJsonWs c = true) → fcost v ≤ fuel → RestOk rest →
      parseVal fuel (W ++ (renderVal l v ++ rest)) = some (v, rest)) ∧
    (∀ (xs : List Json) (Li Lc : Nat) (rest : List Char), (∀ x ∈ xs, WfJson x) →
      sumCostArr xs + 1 ≤ fuel → RestOk rest →
      parseElemsTail fuel
          (renderArrTail Li xs ++ '\n' :: (indentChars Lc ++ (']' :: rest))) =
        some (xs, rest)) ∧
    (∀ (ms : List (List Char × Json)) (Li Lc : Nat) (rest : List Char),
      (∀ m ∈ ms, WfJson m.2) → (ms.map Prod.fst).Nodup →
      sumCostObj ms + 1 ≤ fuel → RestOk rest →
      parseMembersTail fuel
          (renderObjTail Li ms ++ '\n' :: (indentChars Lc ++ (rbrace :: rest))) =
        some (ms, rest)) := by
  intro fuel
  induction fuel using Nat.strong_induction_on with
  | _ fuel IH =>
  refine ⟨?_, ?_, ?_⟩
  · intro v l W rest hwf hW hfc hrest
    obtain ⟨f, rfl⟩ : ∃ f, fuel = f + 1 := ⟨fuel - 1, by have := fcost_pos v; omega⟩
    cases v with
    | null =>
      have hskip : skipWs (W ++ ("null".toList ++ rest)) =
          'n' :: ('u' :: 'l' :: 'l' :: rest) := by
        rw [skipWs_ws_append W _ hW]
        exact skipWs_cons_nonws 'n' ('u' :: 'l' :: 'l' :: rest) (by decide)
      rw [show renderVal l Json.null = "null".toList from by rw [renderVal]]
      simp only [parseVal, hskip, if_true, if_false, matchNull,
        (by decide : ¬ ('n' : Char) = '"'), (by decide : ¬ ('n' : Char) = lbrace),
        (by decide : ¬ ('n' : Char) = '['), (by decide : ¬ ('n' : Char) = 't'),
        (by decide : ¬ ('n' : Char) = 'f')]
    | bool b =>
      cases b with
      | true =>
        have hskip : skipWs (W ++ ("true".toList ++ rest)) =
            't' :: ('r' :: 'u' :: 'e' :: rest) := by
          rw [skipWs_ws_append W _ hW]
          exact skipWs_cons_nonws 't' ('r' :: 'u' :: 'e' :: rest) (by decide)
        rw [show renderVal l (Json.bool true) = "true".toList from by rw [renderVal]]
        simp only [parseVal, hskip, if_true, if_false, matchTrue,
          (by decide : ¬ ('t' : Char) = '"'), (by decide : ¬ ('t' : Char) = lbrace),
          (by decide : ¬ ('t' : Char) = '[')]
      | false =>
        have hskip : skipWs (W ++ ("false".toList ++ rest)) =
            'f' :: ('a' :: 'l' :: 's' :: 'e' :: rest) := by
          rw [skipWs_ws_append W _ hW]
          exact skipWs_cons_nonws 'f' ('a' :: 'l' :: 's' :: 'e' :: rest) (by decide)
        rw [show renderVal l (Json.bool false) = "false".toList from by rw [renderVal]]
        simp only [parseVal, hskip, if_true, if_false, matchFalse,
          (by decide : ¬ ('f' : Char) = '"'), (by decide : ¬ ('f' : Char) = lbrace),
          (by decide : ¬ ('f' : Char) = '['), (by decide : ¬ ('f' : Char) = 't')]
    | num i =>
      rw [show renderVal l (Json.num i) = intChars i from by rw [renderVal]]
      obtain ⟨c, t, hct, hhead⟩ : ∃ c t, intChars i = c :: t ∧
          (isDigitChar c = true ∨ c = '-') := by
        unfold intChars
        by_cases h : i < 0
        · exact ⟨'-', natChars i.natAbs, by rw [if_pos h], Or.inr rfl⟩
        · obtain ⟨c, t, hct⟩ : ∃ c t, natChars i.natAbs = c :: t := by
            cases hcc : natChars i.natAbs with
            | nil => exact absurd hcc (natChars_ne_nil _)
            | cons c t => exact ⟨c, t, rfl⟩
          exact ⟨c, t, by rw [if_neg h, hct],
            Or.inl (natChars_digits i.natAbs c (by rw [hct]; simp))⟩
      have hcw : isJsonWs c = false := by
        rcases hhead with h | rfl
        · exact (digit_head_facts c h).1
        · decide
      have hskip : skipWs (W ++ (intChars i ++ rest)) = c :: (t ++ rest) := by
        rw [skipWs_ws_append W _ hW, hct]
        exact skipWs_cons_nonws c (t ++ rest) hcw
      obtain ⟨n1, n2, n3, n4, n5, n6⟩ := num_head_not_markers c hhead
      have hnum : parseNumber (c :: (t ++ rest)) = some (i, rest) := by
        rw [show c :: (t ++ rest) = intChars i ++ rest from by rw [hct]; rfl]
        exact parseNumber_intChars i rest (restOk_head_not_digit rest hrest)
      simp only [parseVal, hskip, n1, n2, n3, n4, n5, n6, if_false, hnum]
      rfl
    | str s =>
      have hrs : renderVal l (Json.str s) =
          '"' :: (s.flatMap escapeChar ++ ['"']) := by
        rw [renderVal, renderString]
        simp [List.append_assoc]
      rw [hrs]
      have hskip : skipWs (W ++ (('"' :: (s.flatMap escapeChar ++ ['"'])) ++ rest)) =
          '"' :: (s.flatMap escapeChar ++ ('"' :: rest)) := by
        rw [skipWs_ws_append W _ hW]
        rw [show ('"' :: (s.flatMap escapeChar ++ ['"'])) ++ rest =
          '"' :: (s.flatMap escapeChar ++ ('"' :: rest)) from by
            simp [List.append_assoc]]
        exact skipWs_cons_nonws '"' _ (by decide)
      simp only [parseVal, hskip, if_true, parseStringBody_render]
      rfl
    | arr xs =>
      cases xs with
      | nil =>
        have hskip : skipWs (W ++ ("[]".toList ++ rest)) = '[' :: (']' :: rest) := by
          rw [skipWs_ws_append W _ hW]
          exact skipWs_cons_nonws '[' (']' :: rest) (by decide)
        obtain ⟨g, rfl⟩ : ∃ g, f = g + 1 := by
          rw [fcost_arr] at hfc
          exact ⟨f - 1, by omega⟩
        rw [show renderVal l (Json.arr []) = "[]".toList from by rw [renderVal]]
        simp only [parseVal, hskip, if_true, if_false, parseElemsStart,
          skipWs_cons_nonws ']' rest (by decide),
          (by decide : ¬ ('[' : Char) = '"'), (by decide : ¬ ('[' : Char) = lbrace)]
      | cons x xs =>
        have hwfx : WfJson x := wf_arr_inv hwf x (by simp)
        have hwfxs : ∀ y ∈ xs, WfJson y := fun y hy => wf_arr_inv hwf y (by simp [hy])
        have hfc2 : fcost x + sumCostArr xs + 3 ≤ f + 1 := by
          rw [fcost_arr, sumCostArr_cons] at hfc
          omega
        obtain ⟨g, rfl⟩ : ∃ g, f = g + 1 := ⟨f - 1, by omega⟩
        rw [renderVal_arrCons]
        have hre : ('[' :: '\n' :: (indentChars (l + 1) ++ (renderVal (l + 1) x ++
            (renderArrTail (l + 1) xs ++ ('\n' :: (indentChars l ++ [']'])))))) ++ rest =
            '[' :: ('\n' :: (indentChars (l + 1) ++ (renderVal (l + 1) x ++ (renderArrTail (l + 1) xs ++ ('\n' :: (indentChars l ++ (']' :: rest))))))) := by
          simp [List.append_assoc]
        rw [hre]
        have hskip1 : skipWs (W ++ ('[' :: ('\n' :: (indentChars (l + 1) ++ (renderVal (l + 1) x ++ (renderArrTail (l + 1) xs ++ ('\n' :: (indentChars l ++ (']' :: rest))))))))) = '[' :: ('\n' :: (indentChars (l + 1) ++ (renderVal (l + 1) x ++ (renderArrTail (l + 1) xs ++ ('\n' :: (indentChars l ++ (']' :: rest))))))) := by
          rw [skipWs_ws_append W _ hW]
          exact skipWs_cons_nonws '[' _ (by decide)
        obtain ⟨c0, t0, hct, hc0w, hc0b, hc0br, hc0c⟩ := renderVal_head (l + 1) x
        have hskip2 : skipWs ('\n' :: (indentChars (l + 1) ++ (renderVal (l + 1) x ++ (renderArrTail (l + 1) xs ++ ('\n' :: (indentChars l ++ (']' :: rest))))))) = c0 :: (t0 ++ (renderArrTail (l + 1) xs ++ ('\n' :: (indentChars l ++ (']' :: rest))))) := by
          rw [show ('\n' :: (indentChars (l + 1) ++ (renderVal (l + 1) x ++ (renderArrTail (l + 1) xs ++ ('\n' :: (indentChars l ++ (']' :: rest))))))) =
            ('\n' :: indentChars (l + 1)) ++ (renderVal (l + 1) x ++ (renderArrTail (l + 1) xs ++ ('\n' :: (indentChars l ++ (']' :: rest))))) from rfl]
          rw [skipWs_ws_append _ _ (newline_indent_ws (l + 1)), hct]
          exact skipWs_cons_nonws c0 _ hc0w
        have hv : parseVal g (c0 :: (t0 ++ (renderArrTail (l + 1) xs ++ ('\n' :: (indentChars l ++ (']' :: rest)))))) = some (x, renderArrTail (l + 1) xs ++ ('\n' :: (indentChars l ++ (']' :: rest)))) := by
          have h := (IH g (by omega)).1 x (l + 1) [] (renderArrTail (l + 1) xs ++ ('\n' :: (indentChars l ++ (']' :: rest))))
            hwfx (by simp) (by omega) (restOk_arrTail _ _ _)
          rw [List.nil_append, hct, List.cons_append] at h
          exact h
        have ht := (IH g (by omega)).2.1 xs (l + 1) l rest hwfxs (by omega) hrest
        simp only [parseVal, hskip1, if_true, if_false, parseElemsStart, hskip2,
          hc0b, hv, ht,
          (by decide : ¬ ('[' : Char) = '"'), (by decide : ¬ ('[' : Char) = lbrace)]
    | obj ms =>
      cases ms with
      | nil =>
        have hskip : skipWs (W ++ ([lbrace, rbrace] ++ rest)) =
            lbrace :: (rbrace :: rest) := by
          rw [skipWs_ws_append W _ hW]
          exact skipWs_cons_nonws lbrace (rbrace :: rest) (by decide)
        obtain ⟨g, rfl⟩ : ∃ g, f = g + 1 := by
          rw [fcost_obj] at hfc
          exact ⟨f - 1, by omega⟩
        rw [show renderVal l (Json.obj []) = [lbrace, rbrace] from by rw [renderVal]]
        simp only [parseVal, hskip, if_true, if_false, parseMembersStart,
          skipWs_cons_nonws rbrace rest (by decide),
          (by decide : ¬ (lbrace : Char) = '"')]
      | cons m ms =>
        obtain ⟨k, w⟩ := m
        have hinv := wf_obj_inv hwf
        have hwfw : WfJson w := hinv.2 (k, w) (by simp)
        have hwfms : ∀ m ∈ ms, WfJson m.2 := fun m hm => hinv.2 m (by simp [hm])
        have hnodup2 : (ms.map Prod.fst).Nodup := by
          have := hinv.1
          simp only [List.map_cons, List.nodup_cons] at this
          exact this.2
        have hknot : ¬ k ∈ ms.map Prod.fst := by
          have := hinv.1
          simp only [List.map_cons, List.nodup_cons] at this
          exact this.1
        have hfc2 : fcost w + sumCostObj ms + 3 ≤ f + 1 := by
          rw [fcost_obj, sumCostObj_cons] at hfc
          have hse : fcost (k, w).2 = fcost w := rfl
          rw [hse] at hfc
          omega
        obtain ⟨g, rfl⟩ : ∃ g, f = g + 1 := ⟨f - 1, by omega⟩
        rw [renderVal_objCons, renderMember_eq]
        have hre : (lbrace :: '\n' :: (indentChars (l + 1) ++
            (('"' :: (k.flatMap escapeChar ++ ('"' :: (':' :: ' ' ::
              renderVal (l + 1) w)))) ++
             (renderObjTail (l + 1) ms ++
               ('\n' :: (indentChars l ++ [rbrace])))))) ++ rest = lbrace :: ('\n' :: (indentChars (l + 1) ++ ('"' :: (k.flatMap escapeChar ++ ('"' :: (':' :: (' ' :: (renderVal (l + 1) w ++ (renderObjTail (l + 1) ms ++ ('\n' :: (indentChars l ++ (rbrace :: rest)))))))))))) := by
          simp [List.append_assoc]
        rw [hre]
        have hskip1 : skipWs (W ++ (lbrace :: ('\n' :: (indentChars (l + 1) ++ ('"' :: (k.flatMap escapeChar ++ ('"' :: (':' :: (' ' :: (renderVal (l + 1) w ++ (renderObjTail (l + 1) ms ++ ('\n' :: (indentChars l ++ (rbrace :: rest)))))))))))))) = lbrace :: ('\n' :: (indentChars (l + 1) ++ ('"' :: (k.flatMap escapeChar ++ ('"' :: (':' :: (' ' :: (renderVal (l + 1) w ++ (renderObjTail (l + 1) ms ++ ('\n' :: (indentChars l ++ (rbrace :: rest)))))))))))) := by
          rw [skipWs_ws_append W _ hW]
          exact skipWs_cons_nonws lbrace _ (by decide)
        have hskip2 : skipWs ('\n' :: (indentChars (l + 1) ++ ('"' :: (k.flatMap escapeChar ++ ('"' :: (':' :: (' ' :: (renderVal (l + 1) w ++ (renderObjTail (l + 1) ms ++ ('\n' :: (indentChars l ++ (rbrace :: rest)))))))))))) = '"' :: (k.flatMap escapeChar ++ ('"' :: (':' :: (' ' :: (renderVal (l + 1) w ++ (renderObjTail (l + 1) ms ++ ('\n' :: (indentChars l ++ (rbrace :: rest))))))))) := by
          rw [show ('\n' :: (indentChars (l + 1) ++ ('"' :: (k.flatMap escapeChar ++ ('"' :: (':' :: (' ' :: (renderVal (l + 1) w ++ (renderObjTail (l + 1) ms ++ ('\n' :: (indentChars l ++ (rbrace :: rest)))))))))))) =
            ('\n' :: indentChars (l + 1)) ++ ('"' :: (k.flatMap escapeChar ++ ('"' :: (':' :: (' ' :: (renderVal (l + 1) w ++ (renderObjTail (l + 1) ms ++ ('\n' :: (indentChars l ++ (rbrace :: rest)))))))))) from rfl]
          rw [skipWs_ws_append _ _ (newline_indent_ws (l + 1))]
          exact skipWs_cons_nonws '"' _ (by decide)
        have hps : parseStringBody (k.flatMap escapeChar ++ ('"' :: (':' :: (' ' :: (renderVal (l + 1) w ++ (renderObjTail (l + 1) ms ++ ('\n' :: (indentChars l ++ (rbrace :: rest))))))))) = some (k, ':' :: (' ' :: (renderVal (l + 1) w ++ (renderObjTail (l + 1) ms ++ ('\n' :: (indentChars l ++ (rbrace :: rest))))))) :=
          parseStringBody_render k _
        have hsk3 : skipWs (':' :: (' ' :: (renderVal (l + 1) w ++ (renderObjTail (l + 1) ms ++ ('\n' :: (indentChars l ++ (rbrace :: rest))))))) = ':' :: (' ' :: (renderVal (l + 1) w ++ (renderObjTail (l + 1) ms ++ ('\n' :: (indentChars l ++ (rbrace :: rest)))))) :=
          skipWs_cons_nonws ':' _ (by decide)
        have hv : parseVal g (' ' :: (renderVal (l + 1) w ++ (renderObjTail (l + 1) ms ++ ('\n' :: (indentChars l ++ (rbrace :: rest)))))) =
            some (w, renderObjTail (l + 1) ms ++ ('\n' :: (indentChars l ++ (rbrace :: rest)))) :=
          (IH g (by omega)).1 w (l + 1) [' '] (renderObjTail (l + 1) ms ++ ('\n' :: (indentChars l ++ (rbrace :: rest))))
            hwfw (by intro c hc; simp at hc; subst hc; decide) (by omega)
            (restOk_objTail _ _ _)
        have ht := (IH g (by omega)).2.2 ms (l + 1) l rest hwfms hnodup2
          (by omega) hrest
        simp only [parseVal, hskip1, if_true, if_false, parseMembersStart, hskip2,
          hps, hsk3, hv, ht,
          (by decide : ¬ (lbrace : Char) = '"'),
          (by decide : ¬ ('"' : Char) = rbrace)]
        rw [consMember_fresh k w ms hknot]
  · intro xs Li Lc rest hwfxs hsum hrest
    obtain ⟨f, rfl⟩ : ∃ f, fuel = f + 1 := ⟨fuel - 1, by omega⟩
    cases xs with
    | nil =>
      rw [show renderArrTail Li [] = [] from by rw [renderArrTail], List.nil_append]
      have hskip : skipWs ('\n' :: (indentChars Lc ++ (']' :: rest))) =
          ']' :: rest := by
        rw [show ('\n' :: (indentChars Lc ++ (']' :: rest))) =
          ('\n' :: indentChars Lc) ++ (']' :: rest) from rfl]
        rw [skipWs_ws_append _ _ (newline_indent_ws Lc)]
        exact skipWs_cons_nonws ']' rest (by decide)
      simp only [parseElemsTail, hskip, if_true]
    | cons x xs =>
      have hwfx : WfJson x := hwfxs x (by simp)
      have hwfxs2 : ∀ y ∈ xs, WfJson y := fun y hy => hwfxs y (by simp [hy])
      have hsum2 : fcost x + sumCostArr xs + 2 ≤ f + 1 := by
        rw [sumCostArr_cons] at hsum
        omega
      rw [renderArrTail_cons]
      have hre : (',' :: '\n' :: (indentChars Li ++ (renderVal Li x ++
          renderArrTail Li xs))) ++ '\n' :: (indentChars Lc ++ (']' :: rest)) =
          ',' :: ('\n' :: (indentChars Li ++ (renderVal Li x ++ (renderArrTail Li xs ++ ('\n' :: (indentChars Lc ++ (']' :: rest))))))) := by
        simp [List.append_assoc]
      rw [hre]
      have hskip : skipWs (',' :: ('\n' :: (indentChars Li ++ (renderVal Li x ++ (renderArrTail Li xs ++ ('\n' :: (indentChars Lc ++ (']' :: rest)))))))) = ',' :: ('\n' :: (indentChars Li ++ (renderVal Li x ++ (renderArrTail Li xs ++ ('\n' :: (indentChars Lc ++ (']' :: rest))))))) :=
        skipWs_cons_nonws ',' _ (by decide)
      have hv : parseVal f ('\n' :: (indentChars Li ++ (renderVal Li x ++ (renderArrTail Li xs ++ ('\n' :: (indentChars Lc ++ (']' :: rest))))))) = some (x, renderArrTail Li xs ++ ('\n' :: (indentChars Lc ++ (']' :: rest)))) :=
        (IH f (by omega)).1 x Li ('\n' :: indentChars Li) (renderArrTail Li xs ++ ('\n' :: (indentChars Lc ++ (']' :: rest))))
          hwfx (newline_indent_ws Li) (by omega) (restOk_arrTail _ _ _)
      have ht := (IH f (by omega)).2.1 xs Li Lc rest hwfxs2 (by omega) hrest
      simp only [parseElemsTail, hskip, if_true, if_false, hv, ht,
        (by decide : ¬ (',' : Char) = ']')]
  · intro ms Li Lc rest hwfms hnodup hsum hrest
    obtain ⟨f, rfl⟩ : ∃ f, fuel = f + 1 := ⟨fuel - 1, by omega⟩
    cases ms with
    | nil =>
      rw [show renderObjTail Li [] = [] from by rw [renderObjTail], List.nil_append]
      have hskip : skipWs ('\n' :: (indentChars Lc ++ (rbrace :: rest))) =
          rbrace :: rest := by
        rw [show ('\n' :: (indentChars Lc ++ (rbrace :: rest))) =
          ('\n' :: indentChars Lc) ++ (rbrace :: rest) from rfl]
        rw [skipWs_ws_append _ _ (newline_indent_ws Lc)]
        exact skipWs_cons_nonws rbrace rest (by decide)
      simp only [parseMembersTail, hskip, if_true]
    | cons m ms =>
      obtain ⟨k, w⟩ := m
      have hwfw : WfJson w := hwfms (k, w) (by simp)
      have hwfms2 : ∀ m ∈ ms, WfJson m.2 := fun m hm => hwfms m (by simp [hm])
      have hnodup2 : (ms.map Prod.fst).Nodup := by
        simp only [List.map_cons, List.nodup_cons] at hnodup
        exact hnodup.2
      have hknot : ¬ k ∈ ms.map Prod.fst := by
        simp only [List.map_cons, List.nodup_cons] at hnodup
        exact hnodup.1
      have hsum2 : fcost w + sumCostObj ms + 2 ≤ f + 1 := by
        rw [sumCostObj_cons] at hsum
        have hse : fcost (k, w).2 = fcost w := rfl
        rw [hse] at hsum
        omega
      rw [renderObjTail_cons, renderMember_eq]
      have hre : (',' :: '\n' :: (indentChars Li ++ (('"' ::
          (k.flatMap escapeChar ++ ('"' :: (':' :: ' ' :: renderVal Li w)))) ++
          renderObjTail Li ms))) ++ '\n' :: (indentChars Lc ++ (rbrace :: rest)) =
          ',' :: ('\n' :: (indentChars Li ++ ('"' :: (k.flatMap escapeChar ++ ('"' :: (':' :: (' ' :: (renderVal Li w ++ (renderObjTail Li ms ++ ('\n' :: (indentChars Lc ++ (rbrace :: rest)))))))))))) := by
        simp [List.append_assoc]
      rw [hre]
      have hskip : skipWs (',' :: ('\n' :: (indentChars Li ++ ('"' :: (k.flatMap escapeChar ++ ('"' :: (':' :: (' ' :: (renderVal Li w ++ (renderObjTail Li ms ++ ('\n' :: (indentChars Lc ++ (rbrace :: rest))))))))))))) = ',' :: ('\n' :: (indentChars Li ++ ('"' :: (k.flatMap escapeChar ++ ('"' :: (':' :: (' ' :: (renderVal Li w ++ (renderObjTail Li ms ++ ('\n' :: (indentChars Lc ++ (rbrace :: rest)))))))))))) :=
        skipWs_cons_nonws ',' _ (by decide)
      have hskip2 : skipWs ('\n' :: (indentChars Li ++ ('"' :: (k.flatMap escapeChar ++ ('"' :: (':' :: (' ' :: (renderVal Li w ++ (renderObjTail Li ms ++ ('\n' :: (indentChars Lc ++ (rbrace :: rest)))))))))))) = '"' :: (k.flatMap escapeChar ++ ('"' :: (':' :: (' ' :: (renderVal Li w ++ (renderObjTail Li ms ++ ('\n' :: (indentChars Lc ++ (rbrace :: rest))))))))) := by
        rw [show ('\n' :: (indentChars Li ++ ('"' :: (k.flatMap escapeChar ++ ('"' :: (':' :: (' ' :: (renderVal Li w ++ (renderObjTail Li ms ++ ('\n' :: (indentChars Lc ++ (rbrace :: rest)))))))))))) =
          ('\n' :: indentChars Li) ++ ('"' :: (k.flatMap escapeChar ++ ('"' :: (':' :: (' ' :: (renderVal Li w ++ (renderObjTail Li ms ++ ('\n' :: (indentChars Lc ++ (rbrace :: rest)))))))))) from rfl]
        rw [skipWs_ws_append _ _ (newline_indent_ws Li)]
        exact skipWs_cons_nonws '"' _ (by decide)
      have hps : parseStringBody (k.flatMap escapeChar ++ ('"' :: (':' :: (' ' :: (renderVal Li w ++ (renderObjTail Li ms ++ ('\n' :: (indentChars Lc ++ (rbrace :: rest))))))))) = some (k, ':' :: (' ' :: (renderVal Li w ++ (renderObjTail Li ms ++ ('\n' :: (indentChars Lc ++ (rbrace :: rest))))))) :=
        parseStringBody_render k _
      have hsk3 : skipWs (':' :: (' ' :: (renderVal Li w ++ (renderObjTail Li ms ++ ('\n' :: (indentChars Lc ++ (rbrace :: rest))))))) = ':' :: (' ' :: (renderVal Li w ++ (renderObjTail Li ms ++ ('\n' :: (indentChars Lc ++ (rbrace :: rest)))))) :=
        skipWs_cons_nonws ':' _ (by decide)
      have hv : parseVal f (' ' :: (renderVal Li w ++ (renderObjTail Li ms ++ ('\n' :: (indentChars Lc ++ (rbrace :: rest)))))) = some (w, renderObjTail Li ms ++ ('\n' :: (indentChars Lc ++ (rbrace :: rest)))) :=
        (IH f (by omega)).1 w Li [' '] (renderObjTail Li ms ++ ('\n' :: (indentChars Lc ++ (rbrace :: rest))))
          hwfw (by intro c hc; simp at hc; subst hc; decide) (by omega)
          (restOk_objTail _ _ _)
      have ht := (IH f (by omega)).2.2 ms Li Lc rest hwfms2 hnodup2 (by omega) hrest
      simp only [parseMembersTail, hskip, if_true, if_false, hskip2, hps, hsk3,
        hv, ht, (by decide : ¬ (',' : Char) = rbrace)]
      rw [consMember_fresh k w ms hknot]

/-! ## Every parse result is well-formed -/

theorem matchTrue_some (s : List Char) (p : Json × List Char)
    (h : matchTrue s = some p) : p.1 = Json.bool true := by
  unfold matchTrue at h
  split at h
  · injection h with h2
    cases h2
    rfl
  · exact absurd h (by simp)

theorem matchFalse_some (s : List Char) (p : Json × List Char)
    (h : matchFalse s = some p) : p.1 = Json.bool false := by
  unfold matchFalse at h
  split at h
  · injection h with h2
    cases h2
    rfl
  · exact absurd h (by simp)

theorem matchNull_some (s : List Char) (p : Json × List Char)
    (h : matchNull s = some p) : p.1 = Json.null := by
  unfold matchNull at h
  split at h
  · injection h with h2
    cases h2
    rfl
  · exact absurd h (by simp)

theorem consMember_wf (k : List Char) (v : Json) (ms : List (List Char × Json))
    (hn : (ms.map Prod.fst).Nodup) (hw : ∀ m ∈ ms, WfJson m.2) (hv : WfJson v) :
    ((consMember k v ms).map Prod.fst).Nodup ∧
      ∀ m ∈ consMember k v ms, WfJson m.2 := by
  unfold consMember
  cases hf : ms.find? (fun m => m.1 = k) with
  | some m =>
    have hm : m ∈ ms := List.mem_of_find?_eq_some hf
    constructor
    · simp only [List.map_cons, List.nodup_cons]
      refine ⟨?_, ?_⟩
      · intro hk
        simp only [List.mem_map] at hk
        obtain ⟨x, hx, hxk⟩ := hk
        have := List.of_mem_filter hx
        simp at this
        exact this hxk
      · exact List.Nodup.sublist
          (List.Sublist.map Prod.fst (List.filter_sublist ms)) hn
    · intro q hq
      simp only [List.mem_cons] at hq
      rcases hq with rfl | hq
      · exact hw m hm
      · exact hw q (List.mem_of_mem_filter hq)
  | none =>
    constructor
    · simp only [List.map_cons, List.nodup_cons]
      refine ⟨?_, hn⟩
      intro hk
      simp only [List.mem_map] at hk
      obtain ⟨x, hx, hxk⟩ := hk
      have := List.find?_eq_none.mp hf x hx
      simp at this
      exact this hxk
    · intro q hq
      simp only [List.mem_cons] at hq
      rcases hq with rfl | hq
      · exact hv
      · exact hw q hq

theorem wf_of_parse : ∀ fuel : Nat,
    (∀ s v r, parseVal fuel s = some (v, r) → WfJson v) ∧
    (∀ s v r, parseElemsStart fuel s = some (v, r) → WfJson v) ∧
    (∀ s vs r, parseElemsTail fuel s = some (vs, r) → ∀ x ∈ vs, WfJson x) ∧
    (∀ s v r, parseMembersStart fuel s = some (v, r) → WfJson v) ∧
    (∀ s ms r, parseMembersTail fuel s = some (ms, r) →
      (ms.map Prod.fst).Nodup ∧ ∀ m ∈ ms, WfJson m.2) := by
  intro fuel
  induction fuel with
  | zero =>
    refine ⟨?_, ?_, ?_, ?_, ?_⟩ <;> intro s a r h <;>
      exact absurd h (by simp [parseVal, parseElemsStart, parseElemsTail,
        parseMembersStart, parseMembersTail])
  | succ f IH =>
    obtain ⟨IHv, IHes, IHet, IHms, IHmt⟩ := IH
    refine ⟨?_, ?_, ?_, ?_, ?_⟩
    · intro s v r h
      rcases hsw : skipWs s with _ | ⟨c, rest⟩
      · exact absurd (by simp only [parseVal, hsw] at h; exact h) (by simp)
      · simp only [parseVal, hsw] at h
        split_ifs at h with h1 h2 h3 h4 h5 h6
        · obtain ⟨q, hq, hf⟩ := Option.map_eq_some'.mp h
          have hv : Json.str q.1 = v := congrArg Prod.fst hf
          rw [← hv]
          exact WfJson.str _
        · exact IHms rest v r h
        · exact IHes rest v r h
        · have hb := matchTrue_some rest (v, r) h
          simp only [] at hb
          rw [hb]
          exact WfJson.bool _
        · have hb := matchFalse_some rest (v, r) h
          simp only [] at hb
          rw [hb]
          exact WfJson.bool _
        · have hb := matchNull_some rest (v, r) h
          simp only [] at hb
          rw [hb]
          exact WfJson.null
        · obtain ⟨q, hq, hf⟩ := Option.map_eq_some'.mp h
          have hv : Json.num q.1 = v := congrArg Prod.fst hf
          rw [← hv]
          exact WfJson.num _
    · intro s v r h
      rcases hsw : skipWs s with _ | ⟨c, rest⟩
      · exact absurd (by simp only [parseElemsStart, hsw] at h; exact h) (by simp)
      · simp only [parseElemsStart, hsw] at h
        split_ifs at h with h1
        · injection h with h2
          injection h2 with h3 h4
          rw [← h3]
          exact WfJson.arr [] (by simp)
        · rcases hv : parseVal f (c :: rest) with _ | ⟨w, r2⟩
          · simp only [hv] at h
            exact absurd h (by simp)
          · simp only [hv] at h
            rcases ht : parseElemsTail f r2 with _ | ⟨ws, r3⟩
            · simp only [ht] at h
              exact absurd h (by simp)
            · simp only [ht] at h
              injection h with h2
              injection h2 with h3 h4
              rw [← h3]
              refine WfJson.arr _ ?_
              intro x hx
              simp only [List.mem_cons] at hx
              rcases hx with rfl | hx
              · exact IHv _ _ _ hv
              · exact IHet _ _ _ ht x hx
    · intro s vs r h
      rcases hsw : skipWs s with _ | ⟨c, rest⟩
      · exact absurd (by simp only [parseElemsTail, hsw] at h; exact h) (by simp)
      · simp only [parseElemsTail, hsw] at h
        split_ifs at h with h1 h2
        · injection h with h2
          injection h2 with h3 h4
          rw [← h3]
          intro x hx
          simp at hx
        · rcases hv : parseVal f rest with _ | ⟨w, r2⟩
          · simp only [hv] at h
            exact absurd h (by simp)
          · simp only [hv] at h
            rcases ht : parseElemsTail f r2 with _ | ⟨ws, r3⟩
            · simp only [ht] at h
              exact absurd h (by simp)
            · simp only [ht] at h
              injection h with h2
              injection h2 with h3 h4
              rw [← h3]
              intro x hx
              simp only [List.mem_cons] at hx
              rcases hx with rfl | hx
              · exact IHv _ _ _ hv
              · exact IHet _ _ _ ht x hx
    · intro s v r h
      rcases hsw : skipWs s with _ | ⟨c, rest⟩
      · exact absurd (by simp only [parseMembersStart, hsw] at h; exact h)
          (by simp)
      · simp only [parseMembersStart, hsw] at h
        split_ifs at h with h1 h2
        · injection h with h2
          injection h2 with h3 h4
          rw [← h3]
          exact WfJson.obj [] (by simp) (by simp)
        · rcases hps : parseStringBody rest with _ | ⟨k, r2⟩
          · simp only [hps] at h
            exact absurd h (by simp)
          · simp only [hps] at h
            rcases hsw2 : skipWs r2 with _ | ⟨c2, r3⟩
            · simp only [hsw2] at h
              exact absurd h (by simp)
            · by_cases hcol : c2 = ':'
              · subst hcol
                simp only [hsw2] at h
                rcases hv : parseVal f r3 with _ | ⟨w, r4⟩
                · simp only [hv] at h
                  exact absurd h (by simp)
                · simp only [hv] at h
                  rcases ht : parseMembersTail f r4 with _ | ⟨ws, r5⟩
                  · simp only [ht] at h
                    exact absurd h (by simp)
                  · simp only [ht] at h
                    injection h with h2
                    injection h2 with h3 h4
                    rw [← h3]
                    have hwf := IHmt _ _ _ ht
                    have hcw := consMember_wf k w ws hwf.1 hwf.2 (IHv _ _ _ hv)
                    exact WfJson.obj _ hcw.1 hcw.2
              · rw [hsw2] at h
                split at h
                all_goals first
                  | (exact absurd h (by simp))
                  | (exact absurd rfl hcol)
                  | (rename_i heq
                     refine absurd ?_ hcol
                     injection heq with hA hB <;> first | exact hA | rfl)
    · intro s ms r h
      rcases hsw : skipWs s with _ | ⟨c, rest⟩
      · exact absurd (by simp only [parseMembersTail, hsw] at h; exact h)
          (by simp)
      · simp only [parseMembersTail, hsw] at h
        split_ifs at h with h1 h2
        · injection h with h2
          injection h2 with h3 h4
          rw [← h3]
          exact ⟨by simp, by simp⟩
        · rcases hsw2 : skipWs rest with _ | ⟨c2, r2⟩
          · simp only [hsw2] at h
            exact absurd h (by simp)
          · by_cases hq : c2 = '"'
            · subst hq
              simp only [hsw2] at h
              rcases hps : parseStringBody r2 with _ | ⟨k, r3⟩
              · simp only [hps] at h
                exact absurd h (by simp)
              · simp only [hps] at h
                rcases hsw3 : skipWs r3 with _ | ⟨c3, r4⟩
                · simp only [hsw3] at h
                  exact absurd h (by simp)
                · by_cases hcol : c3 = ':'
                  · subst hcol
                    simp only [hsw3] at h
                    rcases hv : parseVal f r4 with _ | ⟨w, r5⟩
                    · simp only [hv] at h
                      exact absurd h (by simp)
                    · simp only [hv] at h
                      rcases ht : parseMembersTail f r5 with _ | ⟨ws, r6⟩
                      · simp only [ht] at h
                        exact absurd h (by simp)
                      · simp only [ht] at h
                        injection h with h2
                        injection h2 with h3 h4
                        rw [← h3]
                        have hwf := IHmt _ _ _ ht
                        exact consMember_wf k w ws hwf.1 hwf.2 (IHv _ _ _ hv)
                  · rw [hsw3] at h
                    split at h
                    all_goals first
                      | (exact absurd h (by simp))
                      | (exact absurd rfl hcol)
                      | (rename_i heq
                         refine absurd ?_ hcol
                         injection heq with hA hB <;> first | exact hA | rfl)
            · rw [hsw2] at h
              split at h
              all_goals first
                | (exact absurd h (by simp))
                | (exact absurd rfl hq)
                | (rename_i heq
                   refine absurd ?_ hq
                   injection heq with hA hB <;> first | exact hA | rfl)

/-! ## The render of a value is long enough to pay for its parse fuel -/

theorem fcost_le_render : ∀ n : Nat,
    (∀ v : Json, sizeOf v ≤ n → ∀ l, fcost v ≤ (renderVal l v).length + 1) ∧
    (∀ xs : List Json, sizeOf xs ≤ n →
      ∀ l, sumCostArr xs ≤ (renderArrTail l xs).length) ∧
    (∀ ms : List (List Char × Json), sizeOf ms ≤ n →
      ∀ l, sumCostObj ms ≤ (renderObjTail l ms).length) := by
  intro n
  induction n using Nat.strong_induction_on with
  | _ n IH =>
  refine ⟨?_, ?_, ?_⟩
  · intro v hsz l
    cases v with
    | null => simp only [fcost]; omega
    | bool b => simp only [fcost]; omega
    | num i => simp only [fcost]; omega
    | str s => simp only [fcost]; omega
    | arr xs =>
      cases xs with
      | nil =>
        rw [fcost_arr, show renderVal l (Json.arr []) = "[]".toList from by
          rw [renderVal]]
        simp [sumCostArr]
      | cons x xs =>
        have hsz1 : sizeOf (Json.arr (x :: xs)) = 1 + (1 + sizeOf x + sizeOf xs) := by
          simp [Json.arr.sizeOf_spec]
        have hx1 : 1 ≤ sizeOf x := by
          cases x <;> simp <;> omega
        have hm : sizeOf x ≤ n - 1 ∧ sizeOf xs ≤ n - 1 ∧ 1 ≤ n := by omega
        have hx := (IH (n - 1) (by omega)).1 x (by omega) (l + 1)
        have ht := (IH (n - 1) (by omega)).2.1 xs (by omega) (l + 1)
        rw [fcost_arr, sumCostArr_cons, renderVal_arrCons]
        simp only [List.length_cons, List.length_append]
        omega
    | obj ms =>
      cases ms with
      | nil =>
        rw [fcost_obj, show renderVal l (Json.obj []) = [lbrace, rbrace] from by
          rw [renderVal]]
        simp [sumCostObj]
      | cons m ms =>
        obtain ⟨k, w⟩ := m
        have hsz1 : sizeOf (Json.obj ((k, w) :: ms)) =
            1 + (1 + (1 + sizeOf k + sizeOf w) + sizeOf ms) := by
          simp [Json.obj.sizeOf_spec]
        have hw1 : 1 ≤ sizeOf w := by
          cases w <;> simp <;> omega
        have hw := (IH (n - 1) (by omega)).1 w (by omega) (l + 1)
        have ht := (IH (n - 1) (by omega)).2.2 ms (by omega) (l + 1)
        rw [fcost_obj, sumCostObj_cons, renderVal_objCons, renderMember_eq]
        simp only [List.length_cons, List.length_append]
        omega
  · intro xs hsz l
    cases xs with
    | nil => simp [sumCostArr, renderArrTail]
    | cons x xs =>
      have hsz1 : sizeOf (x :: xs) = 1 + sizeOf x + sizeOf xs := by simp
      have hx1 : 1 ≤ sizeOf x := by
        cases x <;> simp <;> omega
      have hx := (IH (n - 1) (by omega)).1 x (by omega) l
      have ht := (IH (n - 1) (by omega)).2.1 xs (by omega) l
      rw [sumCostArr_cons, renderArrTail_cons]
      simp only [List.length_cons, List.length_append]
      omega
  · intro ms hsz l
    cases ms with
    | nil => simp [sumCostObj, renderObjTail]
    | cons m ms =>
      obtain ⟨k, w⟩ := m
      have hsz1 : sizeOf ((k, w) :: ms) = 1 + (1 + sizeOf k + sizeOf w) + sizeOf ms := by
        simp
      have hw1 : 1 ≤ sizeOf w := by
        cases w <;> simp <;> omega
      have hw := (IH (n - 1) (by omega)).1 w (by omega) l
      have ht := (IH (n - 1) (by omega)).2.2 ms (by omega) l
      rw [sumCostObj_cons, renderObjTail_cons, renderMember_eq]
      simp only [List.length_cons, List.length_append]
      omega

/-! ## The serialize-then-parse round trip -/

theorem pyLoads_pyDumps (v : Json) (h : WfJson v) : pyLoads (pyDumps v) = some v := by
  have hb : fcost v ≤ 2 * (renderVal 0 v).length + 2 := by
    have := (fcost_le_render (sizeOf v)).1 v le_rfl 0
    omega
  have hp := (parse_render (2 * (renderVal 0 v).length + 2)).1 v 0 [] [] h
    (by intro c hc; simp at hc) hb (True.intro : RestOk [])
  rw [List.nil_append, List.append_nil] at hp
  show pyLoads (renderVal 0 v) = some v
  simp only [pyLoads, List.length_nil, hp]
  simp [skipWs]

theorem wf_of_pyLoads (s : List Char) (v : Json) (h : pyLoads s = some v) :
    WfJson v := by
  unfold pyLoads at h
  rcases hp : parseVal (2 * s.length + 2) s with _ | ⟨w, rest⟩
  · simp only [hp] at h
    exact absurd h (by simp)
  · simp only [hp] at h
    split_ifs at h with hr
    · injection h with h2
      rw [← h2]
      exact (wf_of_parse (2 * s.length + 2)).1 s w rest hp

/-- C8: Round trip — for every value obtained by successfully JSON-decoding the
extracted output text, re-serializing it with the download serialization
(`ensure_ascii` disabled, 2-space indent) and parsing that serialization again
yields a value equal to the original decoded value. -/
theorem json_roundtrip (s : List Char) (v : Json) (h : pyLoads s = some v) :
    pyLoads (pyDumps v) = some v :=
  pyLoads_pyDumps v (wf_of_pyLoads s v h)

theorem json_roundtrip_witness :
    pyLoads ('[' :: '1' :: [']']) = some (Json.arr [Json.num 1]) ∧
    pyLoads (pyDumps (Json.arr [Json.num 1])) = some (Json.arr [Json.num 1]) :=
  ⟨rfl, json_roundtrip ('[' :: '1' :: [']']) (Json.arr [Json.num 1]) rfl⟩
